import Mathlib

/-!
Verification development for the TreBor borrowing-detection core
(`trebor.py`, with the sibling implementations in `trpn.py`).

The Python code is shallowly embedded:

* `PTree` models the PyCogent rooted tree used by the code (every node
  carries a name; children are an arbitrary list, since the source tree
  type is not restricted to binary trees).  Dictionaries keyed by node
  names (`d[node.Name]` in the solvers) are modelled structurally; this is
  faithful whenever all node names are distinct, which is the data-model
  assumption of the tree format (theorems that depend on it carry an
  explicit `Nodup` hypothesis).
* Fallible Python code (list `index` lookups, unpacking a child list into
  exactly two children, `min`/`[0]` on empty lists, `lowestCommonAncestor`
  returning `None`) is modelled with `Option`; any Python exception is
  `none`.
* Python's stable `sorted(key=...)` is modelled by `List.insertionSort`
  with the relation `key x ≤ key y`, which is a stable ascending sort and
  therefore extensionally the function `sorted` computes.
-/

namespace TreBor

/-- A gain-loss scenario: a list of `(node-name, event)` pairs, where the
event is `1` (gain) or `0` (loss). -/
abbrev GLS := List (String × Nat)

/-- A partial history of the solvers' dynamic programme: the state
attributed to the current subtree root, together with the list of events
already committed strictly below it (`(state, events)` in the source). -/
abbrev Hist := Nat × GLS

/-- Rooted tree with named nodes, as used by the PyCogent trees the
source operates on. -/
inductive PTree where
  | tip : String → PTree
  | node : String → List PTree → PTree
deriving Repr

/-- The `Name` attribute of a node. -/
def PTree.name : PTree → String
  | .tip n => n
  | .node n _ => n

mutual
/-- Names of all leaves below a node, in traversal order; a tip counts as
its own (single) leaf.  This is PyCogent `tips()` applied to an internal
node. -/
def allTips : PTree → List String
  | .tip n => [n]
  | .node _ cs => allTipsF cs
def allTipsF : List PTree → List String
  | [] => []
  | c :: cs => allTips c ++ allTipsF cs
end

/-- PyCogent `tips(include_self=False)`: the leaves strictly below a node,
and `[]` when the node itself is a tip. -/
def tipsOf : PTree → List String
  | .tip _ => []
  | .node _ cs => allTipsF cs

mutual
/-- All node names of a tree, root first (preorder). -/
def nodeNames : PTree → List String
  | .tip n => [n]
  | .node n cs => n :: nodeNamesF cs
def nodeNamesF : List PTree → List String
  | [] => []
  | c :: cs => nodeNames c ++ nodeNamesF cs
end

/-- Names of the proper descendants of a node (everything strictly below
the root). -/
def properNames : PTree → List String
  | .tip _ => []
  | .node _ cs => nodeNamesF cs

mutual
/-- Names of the internal nodes of a tree, including its root when the
root is internal (preorder). -/
def nontipNamesInc : PTree → List String
  | .tip _ => []
  | .node n cs => n :: nontipNamesIncF cs
def nontipNamesIncF : List PTree → List String
  | [] => []
  | c :: cs => nontipNamesInc c ++ nontipNamesIncF cs
end

/-- PyCogent `nontips(include_self=False)` (the source's default): the
internal nodes strictly below a node, excluding the node itself. -/
def nontipNames : PTree → List String
  | .tip _ => []
  | .node _ cs => nontipNamesIncF cs

mutual
/-- PyCogent `getNodeMatchingName`: the first node (preorder) carrying the
given name, `none` when absent (the source raises `TreeError` then). -/
def findNode (n : String) : PTree → Option PTree
  | .tip m => if m == n then some (.tip m) else none
  | .node m cs => if m == n then some (.node m cs) else findNodeF n cs
def findNodeF (n : String) : List PTree → Option PTree
  | [] => none
  | c :: cs =>
    match findNode n c with
    | some t => some t
    | none => findNodeF n cs
end

/-- Number of leaves of `t` whose name belongs to `names`. -/
def posCountT (names : List String) (t : PTree) : Nat :=
  (allTips t).countP (fun n => names.contains n)

mutual
/-- Descend from `t` towards the lowest node still dominating every leaf
named in `names`: as long as one child contains all of them, enter it. -/
def lcaDescend (names : List String) : PTree → PTree
  | .tip m => .tip m
  | .node m cs => lcaDescendF names (posCountT names (.node m cs)) (.node m cs) cs
def lcaDescendF (names : List String) (total : Nat) (self : PTree) :
    List PTree → PTree
  | [] => self
  | c :: cs =>
    if posCountT names c == total then lcaDescend names c
    else lcaDescendF names total self cs
end

/-- PyCogent `lowestCommonAncestor`, restricted to the situation the
source uses it in (the requested names are leaf names of the tree, which
the spec's MissingTaxon precondition guarantees): `none` when no leaf
matches (the Python function returns `None` and the caller then crashes),
otherwise the lowest node dominating all matching leaves; for a single
matching leaf this is that leaf itself, as in the source's
`getNodeMatchingName` branch. -/
def lcaT (names : List String) (t : PTree) : Option PTree :=
  if posCountT names t = 0 then none else some (lcaDescend names t)

mutual
/-- Whether every internal node of the tree has exactly two children. -/
def binaryB : PTree → Bool
  | .tip _ => true
  | .node _ cs => (cs.length == 2) && binaryF cs
def binaryF : List PTree → Bool
  | [] => true
  | c :: cs => binaryB c && binaryF cs
end

/-- The event a GLS lists at node name `n`, if any (first match). -/
def eventAt? (gls : GLS) (n : String) : Option Nat :=
  (gls.find? (fun p => p.1 == n)).map (fun p => p.2)

mutual
/-- Replay of a GLS over a tree: the inherited state changes to the listed
event at every listed node and propagates unchanged to descendants until
the next listed node; the result is the list of `(tip-name, state)` pairs.
This is the replay semantics of the spec's data model for a GLS. -/
def replay (gls : GLS) (s : Nat) : PTree → List (String × Nat)
  | .tip n => [(n, ((eventAt? gls n).getD s))]
  | .node n cs => replayF gls ((eventAt? gls n).getD s) cs
def replayF (gls : GLS) (s : Nat) : List PTree → List (String × Nat)
  | [] => []
  | c :: cs => replay gls s c ++ replayF gls s cs
end

mutual
/-- For every root-to-tip path of the tree, the sequence of events the GLS
lists along that path (in root-to-tip order, unlisted nodes omitted). -/
def eventChains (gls : GLS) : PTree → List (List Nat)
  | .tip n => [(eventAt? gls n).toList]
  | .node n cs => (eventChainsF gls cs).map (fun ch => (eventAt? gls n).toList ++ ch)
def eventChainsF (gls : GLS) : List PTree → List (List Nat)
  | [] => []
  | c :: cs => eventChains gls c ++ eventChainsF gls cs
end

/-- State a taxon's tip starts in: `1` when its PAP entry is positive,
`0` otherwise; `none` models `taxa.index` raising `ValueError` or the PAP
vector being too short (`IndexError`). -/
def tipState (taxa : List String) (pap : List Nat) (n : String) : Option Nat := do
  let i ← taxa.indexOf? n
  let v ← pap[i]?
  pure (if 1 ≤ v then 1 else 0)

/-- Totalised `tipState` (defaulting to `0`), used to phrase what the PAP
prescribes for a tip. -/
def papVal (taxa : List String) (pap : List Nat) (n : String) : Nat :=
  (tipState taxa pap n).getD 0

/-- The taxa with a positive PAP entry:
`[taxa[i] for i in range(len(taxa)) if pap[i] >= 1]`; `none` models the
`IndexError` raised when the PAP vector is shorter than the taxon list. -/
def posNames (taxa : List String) (pap : List Nat) : Option (List String) :=
  if taxa.length ≤ pap.length then
    some (((taxa.zip pap).filter (fun p => 1 ≤ p.2)).map (fun p => p.1))
  else none

/-- Option-valued `mapM`, written out so that its equations are directly
available: the per-tip initialisation loop of the solvers fails as soon as
one lookup fails. -/
def optMapM (f : α → Option β) : List α → Option (List β)
  | [] => some []
  | x :: xs => do
    let y ← f x
    let ys ← optMapM f xs
    pure (y :: ys)

/-- One combination step of `get_weighted_GLS` (trebor.py:242-313): all
candidate partial histories produced at an internal node with child names
`nameA`, `nameB` from the children's history lists, in the source's
emission order, with the `maxWeight` admissibility filter and the
`noA`/`noB` redundant-gain filter. -/
def combineW (gw lw maxW : Nat) (nameA nameB : String)
    (hsA hsB : List Hist) : List Hist :=
  hsA.flatMap (fun a => hsB.flatMap (fun b =>
    if a.1 = b.1 then
      let tmp := a.2 ++ b.2
      let gl := tmp.map (fun p => p.2) ++ (if a.1 = 1 then [1] else [])
      let weight := gl.count 1 * gw + gl.count 0 * lw
      if weight ≤ maxW then [(a.1, tmp)] else []
    else
      let tmpA := a.2 ++ b.2 ++ [(nameA, a.1)]
      let tmpB := a.2 ++ b.2 ++ [(nameB, b.1)]
      let glA := tmpA.map (fun p => p.2) ++ (if b.1 = 1 then [1] else [])
      let glB := tmpB.map (fun p => p.2) ++ (if a.1 = 1 then [1] else [])
      let weightA := glA.count 1 * gw + glA.count 0 * lw
      let weightB := glB.count 1 * gw + glB.count 0 * lw
      let noA := b.1 = 1 ∧ 1 ∈ tmpA.map (fun p => p.2)
      let noB := a.1 = 1 ∧ 1 ∈ tmpB.map (fun p => p.2)
      (if weightA ≤ maxW ∧ ¬noA then [(b.1, tmpA)] else []) ++
      (if weightB ≤ maxW ∧ ¬noB then [(a.1, tmpB)] else [])))

/-- One combination step of `get_restricted_GLS` (trebor.py:406-471):
identical candidate shapes, with the `restriction` bound on committed
gains plus the pending state instead of the weight bound. -/
def combineR (k : Nat) (nameA nameB : String)
    (hsA hsB : List Hist) : List Hist :=
  hsA.flatMap (fun a => hsB.flatMap (fun b =>
    if a.1 = b.1 then
      let tmp := a.2 ++ b.2
      if tmp.countP (fun p => p.2 = 1) + a.1 ≤ k then [(a.1, tmp)] else []
    else
      let tmpA := a.2 ++ b.2 ++ [(nameA, a.1)]
      let tmpB := a.2 ++ b.2 ++ [(nameB, b.1)]
      let gainsA := b.1 + (tmpA.map (fun p => p.2)).sum
      let gainsB := a.1 + (tmpB.map (fun p => p.2)).sum
      let noA := b.1 = 1 ∧ 1 ∈ tmpA.map (fun p => p.2)
      let noB := a.1 = 1 ∧ 1 ∈ tmpB.map (fun p => p.2)
      (if gainsA ≤ k ∧ ¬noA then [(b.1, tmpA)] else []) ++
      (if gainsB ≤ k ∧ ¬noB then [(a.1, tmpB)] else [])))

/-- The bottom-up dynamic programme shared by both solvers: tips are
initialised from the PAP, and every internal node combines the history
lists of its exactly-two children (`nameA,nameB = [x.Name for x in
node.Children]` fails on any other arity).  The source iterates the
internal nodes in increasing tip-count order, which is a topological order
whenever the combination is reachable at all, so the structural recursion
computes the same table. -/
def histsGen (taxa : List String) (pap : List Nat)
    (comb : String → String → List Hist → List Hist → List Hist) :
    PTree → Option (List Hist)
  | .tip n => (tipState taxa pap n).map (fun s => [(s, [])])
  | .node _ [a, b] => do
      let hsA ← histsGen taxa pap comb a
      let hsB ← histsGen taxa pap comb b
      pure (comb a.name b.name hsA hsB)
  | .node _ _ => none

/-- `maxWeight = min(pap.count(1) * ratio[0], pap.count(0) * ratio[1] +
ratio[0])` (trebor.py:239). -/
def maxWeightOf (pap : List Nat) (gw lw : Nat) : Nat :=
  min (pap.count 1 * gw) (pap.count 0 * lw + gw)

/-- Conversion of a root history to a complete scenario: a pending state
`1` at the subtree root becomes an explicit gain prepended to the event
list (trebor.py:328-333). -/
def scenarioOf (rootName : String) (h : Hist) : GLS :=
  if h.1 = 1 then (rootName, 1) :: h.2 else h.2

/-- Weighted scenario score: `ratio[0] * gains + ratio[1] * losses`
(trebor.py:341-345). -/
def costW (gw lw : Nat) (l : GLS) : Nat :=
  (l.countP (fun p => p.2 = 1)) * gw + (l.countP (fun p => p.2 = 0)) * lw

/-- Restricted scenario score: `gains + losses` (trebor.py:499-503). -/
def costR (l : GLS) : Nat :=
  l.countP (fun p => p.2 = 1) + l.countP (fun p => p.2 = 0)

/-- Sum of the events of a scenario, the weighted mode's sort key
(`sum([i[1] for i in x])`, trebor.py:358). -/
def sumEvents (l : GLS) : Nat := (l.map (fun p => p.2)).sum

/-- Number of gain events of a scenario. -/
def gainCount (l : GLS) : Nat := l.countP (fun p => p.2 = 1)

/-- Python's `min` over a list of integers (`none` on the empty list,
where Python raises `ValueError`). -/
def pyMin : List Nat → Option Nat
  | [] => none
  | x :: xs =>
    match pyMin xs with
    | none => some x
    | some m => some (min x m)

/-- The scenarios attaining the minimal score: `min(tracer)` followed by
the index filter (trebor.py:350-357). -/
def minCostBy (cost : GLS → Nat) (l : List GLS) : List GLS :=
  match pyMin (l.map cost) with
  | none => []
  | some m => l.filter (fun x => cost x = m)

/-- Final extraction of `get_weighted_GLS`: build the scenario list, keep
the minimal-score ones, stably sort them by ascending event sum and return
the first (trebor.py:327-359); `none` models the `ValueError` Python
raises on an empty list. -/
def finishW (gw lw : Nat) (rootName : String) (hs : List Hist) : Option GLS :=
  (List.insertionSort (fun x y => sumEvents x ≤ sumEvents y)
    (minCostBy (costW gw lw) (hs.map (scenarioOf rootName)))).head?

/-- Final extraction of `get_restricted_GLS`: as in the weighted mode but
scoring by plain event count and sorting by scenario length
(trebor.py:485-515). -/
def finishR (rootName : String) (hs : List Hist) : Option GLS :=
  (List.insertionSort (fun x y => x.length ≤ y.length)
    (minCostBy costR (hs.map (scenarioOf rootName)))).head?

/-- `TreBor.get_weighted_GLS` (trebor.py:185-359). -/
def getWeightedGLS (taxa : List String) (pap : List Nat) (gw lw : Nat)
    (tree : PTree) : Option GLS := do
  let pos ← posNames taxa pap
  let sub ← lcaT pos tree
  let sts ← optMapM (tipState taxa pap) (tipsOf sub)
  if sts.sum = sts.length then
    pure [(sub.name, 1)]
  else do
    let hs ← histsGen taxa pap (combineW gw lw (maxWeightOf pap gw lw)) sub
    finishW gw lw sub.name hs

/-- `TreBor.get_restricted_GLS` (trebor.py:361-515). -/
def getRestrictedGLS (taxa : List String) (pap : List Nat) (k : Nat)
    (tree : PTree) : Option GLS := do
  let pos ← posNames taxa pap
  let sub ← lcaT pos tree
  let sts ← optMapM (tipState taxa pap) (tipsOf sub)
  if sts.sum = sts.length then
    pure [(sub.name, 1)]
  else do
    let hs ← histsGen taxa pap (combineR k) sub
    finishR sub.name hs

/-- Number of origins of a scenario: `sum([t[1] for t in gls])`
(trebor.py:587). -/
def nooOf (g : GLS) : Nat := (g.map (fun p => p.2)).sum

/-- The `(cog, GLS, origins)` results `TreBor.get_GLS` (trebor.py:517-595)
computes before writing files: every PAP whose value sum is not `1` (the
singleton test of `__init__`, trebor.py:142) is handed to the selected
solver; any solver exception aborts the whole computation. -/
def getGLSall (taxa : List String) (tree : PTree)
    (paps : List (String × List Nat)) (weighted : Bool) (gw lw k : Nat) :
    Option (List (String × GLS × Nat)) :=
  (paps.filter (fun p => p.2.sum ≠ 1)).mapM (fun p => do
    let g ← (if weighted then getWeightedGLS taxa p.2 gw lw tree
             else getRestrictedGLS taxa p.2 k tree)
    pure (p.1, g, nooOf g))

/-- Sort key of the ancestral projector: the tip count of the tree node
carrying a given name (`len(self.tree.getNodeMatchingName(x).tips())`,
trebor.py:767/786); names absent from the tree raise in Python and are not
part of the modelled domain. -/
def tipCountIn (tree : PTree) (n : String) : Nat :=
  match findNode n tree with
  | some t => (tipsOf t).length
  | none => 0

/-- The per-character core of `TreBor.get_AVSD` (trebor.py:781-813): the
list of internal-node states projected from one GLS.  The node list is
`'root'` followed by the internal node names sorted by descending tip
count (stable); the GLS is sorted the same way; the root state is `1`
exactly when the first sorted entry is `('root', 1)`; every node starts at
the root state; then each `(name, event)` overwrites the state of the
internal nodes *strictly below* `name` (`nontips()` excludes the node
itself). -/
def projectGLS (tree : PTree) (gls : GLS) : Option (List (String × Nat)) :=
  let nodes := "root" ::
    List.insertionSort (fun a b => tipCountIn tree b ≤ tipCountIn tree a)
      (nontipNames tree)
  let glsSrt :=
    List.insertionSort (fun a b => tipCountIn tree b.1 ≤ tipCountIn tree a.1) gls
  match glsSrt.head? with
  | none => none
  | some g0 =>
    let state := if g0.2 = 1 ∧ g0.1 = "root" then 1 else 0
    let init := nodes.map (fun n => (n, state))
    some (glsSrt.foldl (fun acc g =>
      let subNodes :=
        match findNode g.1 tree with
        | some t => nontipNames t
        | none => []
      acc.map (fun p =>
        if subNodes.contains p.1 then (p.1, if g.2 = 1 then 1 else 0) else p))
      init)

/-- Origin set of a scenario: the nodes listed with event `1`
(trebor.py:887/916). -/
def origins (g : GLS) : List String :=
  (g.filter (fun p => p.2 = 1)).map (fun p => p.1)

/-- All index-ordered pairs `i < j` of a list, as the double loop
`for i,oriA in enumerate(oris): for j,oriB in enumerate(oris): if i < j`
produces them. -/
def orderedPairs : List α → List (α × α)
  | [] => []
  | x :: xs => xs.map (fun y => (x, y)) ++ orderedPairs xs

/-- Weight of the primary co-origin graph `G_P` on the unordered pair
`{u,v}`: each character's scenario contributes one increment per ordered
origin pair equal to `{u,v}` (trebor.py:884-900). -/
def primaryWeight (scen : List GLS) (u v : String) : Nat :=
  (scen.map (fun g =>
    (orderedPairs (origins g)).countP
      (fun p => (p.1 = u ∧ p.2 = v) ∨ (p.1 = v ∧ p.2 = u)))).sum

/-- The edge weight `w = 1000000 / int(gPrm.edge[nodeA][nodeB]['weight'])`
of trebor.py:925.  trebor.py runs under Python 3, where `/` is true
division producing a float; the float value is modelled by the exact
rational (exact for the magnitudes involved, and in particular an integer
float exactly when the rational is an integer). -/
def mlnWeight (g : Nat) : ℚ := 1000000 / (g : ℚ)

/-- The weight graph `W_c` entry for a pair of origins of a character,
as built in trebor.py:919-930. -/
def mlnEdgeWeight (scen : List GLS) (u v : String) : ℚ :=
  mlnWeight (primaryWeight scen u v)

/-- Modelled from the spec (§4.3, the scenario selector): the first
element of a list attaining the minimal key, which is what the head of a
stable ascending sort by that key returns. -/
def firstMinBy (key : GLS → Nat) (l : List GLS) : Option GLS :=
  match pyMin (l.map key) with
  | none => none
  | some m => l.find? (fun x => key x = m)

/-! Concrete instances used by the witnesses and counterexamples. -/

/-- The three-taxon tree `((a,b)X,c)root;` of the spec's Scenario A. -/
def treeA : PTree := .node "root" [.node "X" [.tip "a", .tip "b"], .tip "c"]

/-- The four-taxon tree `((a,b)X,(c,d)Y)root;` of Scenarios B, C and F. -/
def treeB : PTree := .node "root" [.node "X" [.tip "a", .tip "b"], .node "Y" [.tip "c", .tip "d"]]

/-- The GLS of the spec's Scenario F. -/
def glsF : GLS := [("root", 1), ("Y", 0), ("c", 1)]

/-- A two-taxon tree `(a,b)root;`. -/
def tree2 : PTree := .node "root" [.tip "a", .tip "b"]

/-- A trifurcating tree `(a,b,c)root;`. -/
def tree3 : PTree := .node "root" [.tip "a", .tip "b", .tip "c"]

/-- Three characters whose origin sets are all `{A,B}`, giving the primary
co-origin weight `G_P[A,B] = 3`. -/
def scenAB : List GLS := [[("A", 1), ("B", 1)], [("A", 1), ("B", 1)], [("A", 1), ("B", 1)]]

/-- A PAP table with one ordinary character and one character with zero
positive tips. -/
def paps9 : List (String × List Nat) := [("1:1", [1, 1]), ("2:1", [0, 0])]

/-- Shape of every candidate a combination step emits: it arises from one
history of each child, either as the equal-state merge or as one of the
two unequal-state commits, and in the unequal cases the retained candidate
passed the `noA`/`noB` redundant-gain filter. -/
def CombShape (comb : String → String → List Hist → List Hist → List Hist) : Prop :=
  ∀ nA nB hsA hsB h, h ∈ comb nA nB hsA hsB →
    ∃ a, a ∈ hsA ∧ ∃ b, b ∈ hsB ∧
      ((a.1 = b.1 ∧ h = (a.1, a.2 ++ b.2)) ∨
       (a.1 ≠ b.1 ∧ h = (b.1, a.2 ++ b.2 ++ [(nA, a.1)]) ∧
         (b.1 = 1 → (1 : Nat) ∉ (a.2 ++ b.2 ++ [(nA, a.1)]).map (fun p => p.2))) ∨
       (a.1 ≠ b.1 ∧ h = (a.1, a.2 ++ b.2 ++ [(nB, b.1)]) ∧
         (a.1 = 1 → (1 : Nat) ∉ (a.2 ++ b.2 ++ [(nB, b.1)]).map (fun p => p.2))))

end TreBor

namespace TreBor

/-! ### Basic lemmas about the tree functions -/

/-- Induction principle for `PTree` that provides the hypothesis for every
child of a node. -/
theorem PTree.inductionOn {motive : PTree → Prop}
    (htip : ∀ n, motive (.tip n))
    (hnode : ∀ n cs, (∀ c ∈ cs, motive c) → motive (.node n cs)) :
    ∀ t, motive t
  | .tip n => htip n
  | .node n cs => hnode n cs (fun c _ => PTree.inductionOn htip hnode c)

theorem allTipsF_eq (cs : List PTree) : allTipsF cs = cs.flatMap allTips := by
  induction cs with
  | nil => rfl
  | cons c cs ih => simp [allTipsF, ih]

theorem nodeNamesF_eq (cs : List PTree) : nodeNamesF cs = cs.flatMap nodeNames := by
  induction cs with
  | nil => rfl
  | cons c cs ih => simp [nodeNamesF, ih]

theorem nontipNamesIncF_eq (cs : List PTree) :
    nontipNamesIncF cs = cs.flatMap nontipNamesInc := by
  induction cs with
  | nil => rfl
  | cons c cs ih => simp [nontipNamesIncF, ih]

theorem replayF_eq (gls : GLS) (s : Nat) (cs : List PTree) :
    replayF gls s cs = cs.flatMap (replay gls s) := by
  induction cs with
  | nil => rfl
  | cons c cs ih => simp [replayF, ih]

theorem eventChainsF_eq (gls : GLS) (cs : List PTree) :
    eventChainsF gls cs = cs.flatMap (eventChains gls) := by
  induction cs with
  | nil => rfl
  | cons c cs ih => simp [eventChainsF, ih]

theorem allTips_node (n : String) (cs : List PTree) :
    allTips (.node n cs) = cs.flatMap allTips := by
  rw [allTips, allTipsF_eq]

theorem nodeNames_node (n : String) (cs : List PTree) :
    nodeNames (.node n cs) = n :: cs.flatMap nodeNames := by
  rw [nodeNames, nodeNamesF_eq]

theorem properNames_node (n : String) (cs : List PTree) :
    properNames (.node n cs) = cs.flatMap nodeNames := by
  rw [properNames, nodeNamesF_eq]

theorem replay_node (gls : GLS) (s : Nat) (n : String) (cs : List PTree) :
    replay gls s (.node n cs) =
      cs.flatMap (replay gls ((eventAt? gls n).getD s)) := by
  rw [replay, replayF_eq]

theorem eventChains_node (gls : GLS) (n : String) (cs : List PTree) :
    eventChains gls (.node n cs) =
      (cs.flatMap (eventChains gls)).map (fun ch => (eventAt? gls n).toList ++ ch) := by
  rw [eventChains, eventChainsF_eq]

theorem mem_allTips_mem_nodeNames {t : PTree} {x : String}
    (h : x ∈ allTips t) : x ∈ nodeNames t := by
  induction t using PTree.inductionOn with
  | htip n => simpa [allTips, nodeNames] using h
  | hnode n cs ih =>
    rw [allTips_node] at h
    rw [nodeNames_node]
    rcases List.mem_flatMap.1 h with ⟨c, hc, hx⟩
    exact List.mem_cons_of_mem _ (List.mem_flatMap.2 ⟨c, hc, ih c hc hx⟩)

theorem mem_nodeNames_of_child {c : PTree} {cs : List PTree} {x : String}
    (hc : c ∈ cs) (hx : x ∈ nodeNames c) (n : String) :
    x ∈ nodeNames (.node n cs) := by
  rw [nodeNames_node]
  exact List.mem_cons_of_mem _ (List.mem_flatMap.2 ⟨c, hc, hx⟩)

/-- The root name of a subtree is in its name list. -/
theorem name_mem_nodeNames (t : PTree) : t.name ∈ nodeNames t := by
  cases t with
  | tip n => simp [nodeNames, PTree.name]
  | node n cs => simp [nodeNames_node, PTree.name]

/-! ### Lemmas about `eventAt?` and replay -/

theorem eventAt?_nil (n : String) : eventAt? [] n = none := rfl

theorem eventAt?_cons (p : String × Nat) (g : GLS) (n : String) :
    eventAt? (p :: g) n = if p.1 = n then some p.2 else eventAt? g n := by
  by_cases h : p.1 = n
  · have hb : (p.1 == n) = true := beq_iff_eq.2 h
    simp [eventAt?, List.find?, hb, h]
  · have hb : (p.1 == n) = false := beq_eq_false_iff_ne.2 h
    simp [eventAt?, List.find?, hb, h]

theorem eventAt?_append (g₁ g₂ : GLS) (n : String) :
    eventAt? (g₁ ++ g₂) n = (eventAt? g₁ n).or (eventAt? g₂ n) := by
  simp only [eventAt?, List.find?_append]
  cases List.find? (fun p => p.1 == n) g₁ <;> simp

theorem eventAt?_eq_none (g : GLS) (n : String) (h : ∀ p ∈ g, p.1 ≠ n) :
    eventAt? g n = none := by
  unfold eventAt?
  have hf : g.find? (fun p => p.1 == n) = none :=
    List.find?_eq_none.2 (fun p hp => by simpa using h p hp)
  rw [hf]
  rfl

theorem eventAt?_mem {g : GLS} {n : String} {e : Nat}
    (h : eventAt? g n = some e) : ∃ p ∈ g, p.1 = n ∧ p.2 = e := by
  unfold eventAt? at h
  cases hf : g.find? (fun p => p.1 == n) with
  | none => rw [hf] at h; exact Option.noConfusion h
  | some p =>
    rw [hf] at h
    refine ⟨p, List.mem_of_find?_eq_some hf, ?_, Option.some.inj h⟩
    have := List.find?_some hf
    simpa using this

theorem flatMapCongr {l : List α} {f g : α → List β}
    (h : ∀ x ∈ l, f x = g x) : l.flatMap f = l.flatMap g := by
  induction l with
  | nil => rfl
  | cons a t ih =>
    simp only [List.flatMap_cons]
    rw [h a (by simp), ih (fun x hx => h x (by simp [hx]))]

/-- Replay only looks the GLS up at the names of the tree. -/
theorem replay_congr {g₁ g₂ : GLS} :
    ∀ {t : PTree}, (∀ m ∈ nodeNames t, eventAt? g₁ m = eventAt? g₂ m) →
    ∀ s, replay g₁ s t = replay g₂ s t := by
  intro t
  induction t using PTree.inductionOn with
  | htip n =>
    intro h s
    simp [replay, h n (by simp [nodeNames])]
  | hnode n cs ih =>
    intro h s
    rw [replay_node, replay_node, h n (by simp [nodeNames_node])]
    exact flatMapCongr (fun c hc =>
      ih c hc (fun m hm => h m (mem_nodeNames_of_child hc hm n)) _)

theorem eventChains_congr {g₁ g₂ : GLS} :
    ∀ {t : PTree}, (∀ m ∈ nodeNames t, eventAt? g₁ m = eventAt? g₂ m) →
    eventChains g₁ t = eventChains g₂ t := by
  intro t
  induction t using PTree.inductionOn with
  | htip n =>
    intro h
    simp [eventChains, h n (by simp [nodeNames])]
  | hnode n cs ih =>
    intro h
    rw [eventChains_node, eventChains_node, h n (by simp [nodeNames_node])]
    rw [flatMapCongr (fun c hc =>
      ih c hc (fun m hm => h m (mem_nodeNames_of_child hc hm n)))]

/-- Replaying an empty GLS propagates the inherited state to every tip. -/
theorem replay_nil : ∀ (t : PTree) (s : Nat),
    replay [] s t = (allTips t).map (fun n => (n, s)) := by
  intro t
  induction t using PTree.inductionOn with
  | htip n => intro s; simp [replay, allTips, eventAt?_nil]
  | hnode n cs ih =>
    intro s
    rw [replay_node, allTips_node, eventAt?_nil, Option.getD_none, List.map_flatMap]
    exact flatMapCongr (fun c hc => ih c hc s)

theorem eventChains_nil : ∀ (t : PTree),
    eventChains [] t = (allTips t).map (fun _ => ([] : List Nat)) := by
  intro t
  induction t using PTree.inductionOn with
  | htip n => simp [eventChains, allTips, eventAt?_nil, Option.toList]
  | hnode n cs ih =>
    rw [eventChains_node, allTips_node, eventAt?_nil, List.map_flatMap, List.map_flatMap]
    exact flatMapCongr (fun c hc => by simp [Option.toList, ih c hc])

/-- Dropping GLS entries whose names do not occur in the tree does not
change the replay. -/
theorem replay_append_right {g₁ g₂ : GLS} {t : PTree}
    (h : ∀ p ∈ g₂, p.1 ∉ nodeNames t) (s : Nat) :
    replay (g₁ ++ g₂) s t = replay g₁ s t := by
  refine replay_congr (fun m hm => ?_) s
  rw [eventAt?_append, eventAt?_eq_none g₂ m (fun p hp he => h p hp (he ▸ hm)),
    Option.or_none]

theorem replay_append_left {g₁ g₂ : GLS} {t : PTree}
    (h : ∀ p ∈ g₁, p.1 ∉ nodeNames t) (s : Nat) :
    replay (g₁ ++ g₂) s t = replay g₂ s t := by
  refine replay_congr (fun m hm => ?_) s
  rw [eventAt?_append, eventAt?_eq_none g₁ m (fun p hp he => h p hp (he ▸ hm)),
    Option.none_or]

theorem eventChains_append_right {g₁ g₂ : GLS} {t : PTree}
    (h : ∀ p ∈ g₂, p.1 ∉ nodeNames t) :
    eventChains (g₁ ++ g₂) t = eventChains g₁ t := by
  refine eventChains_congr (fun m hm => ?_)
  rw [eventAt?_append, eventAt?_eq_none g₂ m (fun p hp he => h p hp (he ▸ hm)),
    Option.or_none]

theorem eventChains_append_left {g₁ g₂ : GLS} {t : PTree}
    (h : ∀ p ∈ g₁, p.1 ∉ nodeNames t) :
    eventChains (g₁ ++ g₂) t = eventChains g₂ t := by
  refine eventChains_congr (fun m hm => ?_)
  rw [eventAt?_append, eventAt?_eq_none g₁ m (fun p hp he => h p hp (he ▸ hm)),
    Option.none_or]

/-- An event listed exactly at the root of the replayed subtree acts as
the initial state there, provided the root name occurs nowhere else. -/
theorem replay_cons_root {g : GLS} {t : PTree} {e : Nat}
    (hg : ∀ p ∈ g, p.1 ≠ t.name) (hn : t.name ∉ properNames t) (s : Nat) :
    replay ((t.name, e) :: g) s t = replay g e t := by
  cases t with
  | tip n =>
    simp only [PTree.name] at hg
    simp [replay, eventAt?_cons, eventAt?_eq_none g n hg, PTree.name]
  | node n cs =>
    simp only [PTree.name] at hg hn ⊢
    rw [replay_node, replay_node, eventAt?_cons, eventAt?_eq_none g n hg]
    rw [if_pos rfl]
    simp only [Option.getD_some, Option.getD_none]
    refine flatMapCongr (fun c hc => ?_)
    refine replay_congr (fun m hm => ?_) _
    rw [eventAt?_cons, if_neg]
    intro he
    have he2 : n = m := he
    refine hn ?_
    rw [properNames_node]
    exact List.mem_flatMap.2 ⟨c, hc, he2 ▸ hm⟩

theorem eventAt?_spill {g : GLS} {t : PTree} {e : Nat} {m : String}
    (hg : ∀ p ∈ g, p.1 ≠ t.name) :
    eventAt? (g ++ [(t.name, e)]) m = eventAt? ((t.name, e) :: g) m := by
  conv_rhs => rw [eventAt?_cons]
  rw [eventAt?_append]
  by_cases h : t.name = m
  · have h0 : eventAt? g m = none :=
      eventAt?_eq_none g m (fun p hp he => hg p hp (he.trans h.symm))
    rw [if_pos h, h0, Option.none_or, eventAt?_cons, if_pos h]
  · have h1 : eventAt? [(t.name, e)] m = none := by
      refine eventAt?_eq_none _ _ (fun p hp => ?_)
      simp only [List.mem_singleton] at hp
      subst hp
      exact h
    rw [if_neg h, h1, Option.or_none]

theorem replay_append_root {g : GLS} {t : PTree} {e : Nat}
    (hg : ∀ p ∈ g, p.1 ≠ t.name) (hn : t.name ∉ properNames t) (s : Nat) :
    replay (g ++ [(t.name, e)]) s t = replay g e t := by
  rw [← replay_cons_root hg hn s]
  exact replay_congr (fun m _ => eventAt?_spill hg) s

theorem eventChains_cons_root {g : GLS} {t : PTree} {e : Nat}
    (hg : ∀ p ∈ g, p.1 ≠ t.name) (hn : t.name ∉ properNames t) :
    eventChains ((t.name, e) :: g) t = (eventChains g t).map (fun ch => e :: ch) := by
  cases t with
  | tip n =>
    simp only [PTree.name] at hg
    simp [eventChains, eventAt?_cons, eventAt?_eq_none g n hg, Option.toList, PTree.name]
  | node n cs =>
    simp only [PTree.name] at hg hn ⊢
    rw [eventChains_node, eventChains_node, eventAt?_cons, eventAt?_eq_none g n hg]
    rw [if_pos rfl]
    have h1 : cs.flatMap (eventChains ((n, e) :: g)) = cs.flatMap (eventChains g) := by
      refine flatMapCongr (fun c hc => ?_)
      refine eventChains_congr (fun m hm => ?_)
      rw [eventAt?_cons, if_neg]
      intro he
      have he2 : n = m := he
      refine hn ?_
      rw [properNames_node]
      exact List.mem_flatMap.2 ⟨c, hc, he2 ▸ hm⟩
    rw [h1]
    simp [Option.toList]

theorem eventChains_append_root {g : GLS} {t : PTree} {e : Nat}
    (hg : ∀ p ∈ g, p.1 ≠ t.name) (hn : t.name ∉ properNames t) :
    eventChains (g ++ [(t.name, e)]) t = (eventChains g t).map (fun ch => e :: ch) := by
  rw [← eventChains_cons_root hg hn]
  exact eventChains_congr (fun m _ => eventAt?_spill hg)

/-- Every value occurring on an event chain is the event of some GLS
entry. -/
theorem eventChains_values {g : GLS} :
    ∀ {t : PTree} {ch : List Nat}, ch ∈ eventChains g t →
    ∀ x ∈ ch, ∃ p ∈ g, p.2 = x := by
  intro t
  induction t using PTree.inductionOn with
  | htip n =>
    intro ch hch x hx
    simp only [eventChains, List.mem_singleton] at hch
    subst hch
    cases hfind : eventAt? g n with
    | none => simp [hfind, Option.toList] at hx
    | some v =>
      simp only [hfind, Option.toList_some, List.mem_singleton] at hx
      subst hx
      rcases eventAt?_mem hfind with ⟨p, hp, _, hpe⟩
      exact ⟨p, hp, hpe⟩
  | hnode n cs ih =>
    intro ch hch x hx
    rw [eventChains_node] at hch
    rcases List.mem_map.1 hch with ⟨ch', hch', rfl⟩
    rcases List.mem_flatMap.1 hch' with ⟨c, hc, hchc⟩
    rcases List.mem_append.1 hx with hx | hx
    · cases hfind : eventAt? g n with
      | none => simp [hfind, Option.toList] at hx
      | some v =>
        simp only [hfind, Option.toList_some, List.mem_singleton] at hx
        subst hx
        rcases eventAt?_mem hfind with ⟨p, hp, _, hpe⟩
        exact ⟨p, hp, hpe⟩
    · exact ih c hc hchc x hx

end TreBor

namespace TreBor

/-! ### Shape of the combination steps -/

theorem mem_ite_singleton {c : Prop} [Decidable c] {x h : α}
    (hm : h ∈ if c then [x] else []) : h = x := by
  split_ifs at hm
  · exact List.mem_singleton.1 hm
  · exact absurd hm (List.not_mem_nil _)

theorem mem_ite_singleton_cond {c : Prop} [Decidable c] {x h : α}
    (hm : h ∈ if c then [x] else []) : h = x ∧ c := by
  split_ifs at hm with hc
  · exact ⟨List.mem_singleton.1 hm, hc⟩
  · exact absurd hm (List.not_mem_nil _)

theorem combShape_combineW (gw lw maxW : Nat) : CombShape (combineW gw lw maxW) := by
  intro nA nB hsA hsB h hmem
  simp only [combineW, List.mem_flatMap] at hmem
  rcases hmem with ⟨a, ha, b, hb, hmem⟩
  refine ⟨a, ha, b, hb, ?_⟩
  by_cases hab : a.1 = b.1
  · rw [if_pos hab] at hmem
    exact Or.inl ⟨hab, mem_ite_singleton hmem⟩
  · rw [if_neg hab] at hmem
    rcases List.mem_append.1 hmem with hm | hm
    · rcases mem_ite_singleton_cond hm with ⟨heq, hc⟩
      exact Or.inr (Or.inl ⟨hab, heq, fun h1 hin => hc.2 ⟨h1, hin⟩⟩)
    · rcases mem_ite_singleton_cond hm with ⟨heq, hc⟩
      exact Or.inr (Or.inr ⟨hab, heq, fun h1 hin => hc.2 ⟨h1, hin⟩⟩)

theorem combShape_combineR (k : Nat) : CombShape (combineR k) := by
  intro nA nB hsA hsB h hmem
  simp only [combineR, List.mem_flatMap] at hmem
  rcases hmem with ⟨a, ha, b, hb, hmem⟩
  refine ⟨a, ha, b, hb, ?_⟩
  by_cases hab : a.1 = b.1
  · rw [if_pos hab] at hmem
    exact Or.inl ⟨hab, mem_ite_singleton hmem⟩
  · rw [if_neg hab] at hmem
    rcases List.mem_append.1 hmem with hm | hm
    · rcases mem_ite_singleton_cond hm with ⟨heq, hc⟩
      exact Or.inr (Or.inl ⟨hab, heq, fun h1 hin => hc.2 ⟨h1, hin⟩⟩)
    · rcases mem_ite_singleton_cond hm with ⟨heq, hc⟩
      exact Or.inr (Or.inr ⟨hab, heq, fun h1 hin => hc.2 ⟨h1, hin⟩⟩)

/-! ### Plumbing for `histsGen`, `optMapM`, `pyMin` and the selection -/

theorem histsGen_node_inv {taxa : List String} {pap : List Nat}
    {comb : String → String → List Hist → List Hist → List Hist}
    {n : String} {cs : List PTree} {hs : List Hist}
    (h : histsGen taxa pap comb (.node n cs) = some hs) :
    ∃ a b, cs = [a, b] ∧ ∃ hsA hsB,
      histsGen taxa pap comb a = some hsA ∧ histsGen taxa pap comb b = some hsB ∧
      hs = comb a.name b.name hsA hsB := by
  match cs with
  | [] => exact Option.noConfusion h
  | [a] => exact Option.noConfusion h
  | a :: b :: c :: rest => exact Option.noConfusion h
  | [a, b] =>
    refine ⟨a, b, rfl, ?_⟩
    have h' : (histsGen taxa pap comb a).bind (fun hsA =>
        (histsGen taxa pap comb b).bind (fun hsB =>
          some (comb a.name b.name hsA hsB))) = some hs := h
    cases hA : histsGen taxa pap comb a with
    | none => rw [hA] at h'; exact Option.noConfusion h'
    | some hsA =>
      rw [hA] at h'
      have h'' : (histsGen taxa pap comb b).bind (fun hsB =>
          some (comb a.name b.name hsA hsB)) = some hs := h'
      cases hB : histsGen taxa pap comb b with
      | none => rw [hB] at h''; exact Option.noConfusion h''
      | some hsB =>
        rw [hB] at h''
        exact ⟨hsA, hsB, rfl, rfl, (Option.some.inj h'').symm⟩

theorem histsGen_tip_inv {taxa : List String} {pap : List Nat}
    {comb : String → String → List Hist → List Hist → List Hist}
    {n : String} {hs : List Hist}
    (h : histsGen taxa pap comb (.tip n) = some hs) :
    ∃ s, tipState taxa pap n = some s ∧ hs = [(s, [])] := by
  have h' : (tipState taxa pap n).map (fun s => [(s, [])]) = some hs := h
  cases hT : tipState taxa pap n with
  | none => rw [hT] at h'; exact Option.noConfusion h'
  | some s =>
    rw [hT] at h'
    exact ⟨s, rfl, (Option.some.inj h').symm⟩

theorem optMapM_length {f : α → Option β} :
    ∀ {l : List α} {ys : List β}, optMapM f l = some ys → ys.length = l.length := by
  intro l
  induction l with
  | nil => intro ys h; cases Option.some.inj h; rfl
  | cons x xs ih =>
    intro ys h
    have h' : (f x).bind (fun y => (optMapM f xs).bind (fun t => some (y :: t))) = some ys := h
    cases hf : f x with
    | none => rw [hf] at h'; exact Option.noConfusion h'
    | some y =>
      rw [hf] at h'
      have h'' : (optMapM f xs).bind (fun t => some (y :: t)) = some ys := h'
      cases hm : optMapM f xs with
      | none => rw [hm] at h''; exact Option.noConfusion h''
      | some t =>
        rw [hm] at h''
        cases Option.some.inj h''
        simp [ih hm]

theorem optMapM_mem {f : α → Option β} :
    ∀ {l : List α} {ys : List β}, optMapM f l = some ys →
      ∀ x ∈ l, ∃ y ∈ ys, f x = some y := by
  intro l
  induction l with
  | nil => intro ys _ x hx; exact absurd hx (List.not_mem_nil x)
  | cons a xs ih =>
    intro ys h x hx
    have h' : (f a).bind (fun y => (optMapM f xs).bind (fun t => some (y :: t))) = some ys := h
    cases hf : f a with
    | none => rw [hf] at h'; exact Option.noConfusion h'
    | some y =>
      rw [hf] at h'
      have h'' : (optMapM f xs).bind (fun t => some (y :: t)) = some ys := h'
      cases hm : optMapM f xs with
      | none => rw [hm] at h''; exact Option.noConfusion h''
      | some t =>
        rw [hm] at h''
        cases Option.some.inj h''
        rcases List.mem_cons.1 hx with rfl | hx
        · exact ⟨y, by simp, hf⟩
        · rcases ih hm x hx with ⟨z, hz, hfz⟩
          exact ⟨z, by simp [hz], hfz⟩

theorem optMapM_of_forall {f : α → Option β} {g : α → β} :
    ∀ {l : List α}, (∀ x ∈ l, f x = some (g x)) → optMapM f l = some (l.map g) := by
  intro l
  induction l with
  | nil => intro _; rfl
  | cons a xs ih =>
    intro h
    show (f a).bind (fun y => (optMapM f xs).bind (fun t => some (y :: t))) = _
    rw [h a (by simp), ih (fun x hx => h x (by simp [hx]))]
    rfl

theorem optMapM_none_of_mem {f : α → Option β} :
    ∀ {l : List α}, (∃ x ∈ l, f x = none) → optMapM f l = none := by
  intro l
  induction l with
  | nil => intro h; rcases h with ⟨x, hx, _⟩; exact absurd hx (List.not_mem_nil x)
  | cons a xs ih =>
    intro h
    show (f a).bind (fun y => (optMapM f xs).bind (fun t => some (y :: t))) = none
    rcases h with ⟨x, hx, hfx⟩
    rcases List.mem_cons.1 hx with rfl | hx
    · rw [hfx]; rfl
    · cases hf : f a with
      | none => rfl
      | some y =>
        rw [ih ⟨x, hx, hfx⟩]
        rfl

theorem pyMin_mem : ∀ {l : List Nat} {m : Nat}, pyMin l = some m → m ∈ l := by
  intro l
  induction l with
  | nil => intro m h; exact Option.noConfusion h
  | cons x xs ih =>
    intro m h
    rw [pyMin] at h
    cases hm : pyMin xs with
    | none => rw [hm] at h; cases Option.some.inj h; simp
    | some m2 =>
      rw [hm] at h
      cases Option.some.inj h
      by_cases hle : x ≤ m2
      · rw [Nat.min_eq_left hle]
        simp
      · rw [Nat.min_eq_right (Nat.le_of_not_le hle)]
        exact List.mem_cons_of_mem _ (ih hm)

theorem pyMin_isSome : ∀ {l : List Nat}, l ≠ [] → ∃ m, pyMin l = some m := by
  intro l h
  cases l with
  | nil => exact absurd rfl h
  | cons x xs =>
    rw [pyMin]
    cases pyMin xs with
    | none => exact ⟨x, rfl⟩
    | some m => exact ⟨min x m, rfl⟩

theorem pyMin_le : ∀ {l : List Nat} {m : Nat}, pyMin l = some m →
    ∀ x ∈ l, m ≤ x := by
  intro l
  induction l with
  | nil => intro m h; exact Option.noConfusion h
  | cons x xs ih =>
    intro m h y hy
    rw [pyMin] at h
    cases hm : pyMin xs with
    | none =>
      rw [hm] at h
      cases Option.some.inj h
      rcases List.mem_cons.1 hy with rfl | hy
      · exact le_refl _
      · cases xs with
        | nil => exact absurd hy (List.not_mem_nil _)
        | cons z zs =>
          rcases pyMin_isSome (show z :: zs ≠ ([] : List Nat) by simp) with ⟨m2, hm2⟩
          rw [hm2] at hm
          exact Option.noConfusion hm
    | some m2 =>
      rw [hm] at h
      cases Option.some.inj h
      rcases List.mem_cons.1 hy with rfl | hy
      · exact Nat.min_le_left _ _
      · exact le_trans (Nat.min_le_right _ _) (ih hm y hy)

theorem count_map_snd (l : GLS) (v : Nat) :
    (l.map (fun p => p.2)).count v = l.countP (fun p => p.2 = v) := by
  induction l with
  | nil => rfl
  | cons p t ih =>
    simp only [List.map_cons, List.count_cons, List.countP_cons, ih]
    by_cases h : p.2 = v
    · simp [h]
    · simp [h]

theorem countOne_le_sum : ∀ (l : List Nat), l.count 1 ≤ l.sum := by
  intro l
  induction l with
  | nil => simp
  | cons x t ih =>
    simp only [List.count_cons, List.sum_cons]
    by_cases h : x = 1
    · subst h
      simp only [beq_self_eq_true, if_pos]
      omega
    · have hb : (x == 1) = false := beq_eq_false_iff_ne.2 h
      simp only [hb, Bool.false_eq_true, if_false]
      omega

theorem sum_eq_countOne : ∀ {l : List Nat}, (∀ x ∈ l, x = 0 ∨ x = 1) →
    l.sum = l.count 1 := by
  intro l
  induction l with
  | nil => intro _; rfl
  | cons x t ih =>
    intro h
    have ht := ih (fun y hy => h y (by simp [hy]))
    simp only [List.count_cons, List.sum_cons, ht]
    rcases h x (by simp) with rfl | rfl
    · simp
    · simp only [beq_self_eq_true, if_pos]
      omega

theorem head?_insertionSort_mem {r : α → α → Prop} [DecidableRel r]
    {l : List α} {x : α} (h : (List.insertionSort r l).head? = some x) : x ∈ l := by
  have hx : x ∈ List.insertionSort r l := by
    cases hs : List.insertionSort r l with
    | nil => rw [hs] at h; exact Option.noConfusion h
    | cons y ys =>
      rw [hs] at h
      rw [List.mem_cons]
      exact Or.inl (Option.some.inj h).symm
  exact (List.perm_insertionSort r l).subset hx

theorem minCostBy_subset (cost : GLS → Nat) (l : List GLS) :
    minCostBy cost l ⊆ l := by
  unfold minCostBy
  cases h : pyMin (l.map cost) with
  | none => intro x hx; exact absurd hx (List.not_mem_nil x)
  | some m =>
    intro x hx
    exact List.mem_of_mem_filter hx

theorem finishW_mem {gw lw : Nat} {r : String} {hs : List Hist} {g : GLS}
    (h : finishW gw lw r hs = some g) : ∃ a ∈ hs, g = scenarioOf r a := by
  have h1 : g ∈ hs.map (scenarioOf r) :=
    minCostBy_subset _ _ (head?_insertionSort_mem h)
  rcases List.mem_map.1 h1 with ⟨a, ha, rfl⟩
  exact ⟨a, ha, rfl⟩

theorem finishR_mem {r : String} {hs : List Hist} {g : GLS}
    (h : finishR r hs = some g) : ∃ a ∈ hs, g = scenarioOf r a := by
  have h1 : g ∈ hs.map (scenarioOf r) :=
    minCostBy_subset _ _ (head?_insertionSort_mem h)
  rcases List.mem_map.1 h1 with ⟨a, ha, rfl⟩
  exact ⟨a, ha, rfl⟩

/-! ### Structural lemmas for binary nodes -/

theorem nodeNames_pair (n : String) (a b : PTree) :
    nodeNames (.node n [a, b]) = n :: (nodeNames a ++ nodeNames b) := by
  simp [nodeNames_node]

theorem properNames_pair (n : String) (a b : PTree) :
    properNames (.node n [a, b]) = nodeNames a ++ nodeNames b := by
  simp [properNames_node]

theorem allTips_pair (n : String) (a b : PTree) :
    allTips (.node n [a, b]) = allTips a ++ allTips b := by
  simp [allTips_node]

theorem properNames_subset_nodeNames (t : PTree) : properNames t ⊆ nodeNames t := by
  cases t with
  | tip n => simp [properNames]
  | node n cs =>
    rw [properNames_node, nodeNames_node]
    exact fun x hx => List.mem_cons_of_mem _ hx

theorem name_not_mem_properNames {t : PTree} (h : (nodeNames t).Nodup) :
    t.name ∉ properNames t := by
  cases t with
  | tip n => simp [properNames]
  | node n cs =>
    rw [nodeNames_node] at h
    rw [properNames_node]
    simpa [PTree.name] using (List.nodup_cons.1 h).1

theorem nodup_pair_parts {n : String} {a b : PTree}
    (h : (nodeNames (.node n [a, b])).Nodup) :
    (nodeNames a).Nodup ∧ (nodeNames b).Nodup ∧
    (∀ x ∈ nodeNames a, x ∉ nodeNames b) ∧ n ∉ nodeNames a ∧ n ∉ nodeNames b := by
  rw [nodeNames_pair] at h
  rcases List.nodup_cons.1 h with ⟨hn, hab⟩
  rcases List.nodup_append.1 hab with ⟨ha, hb, hd⟩
  exact ⟨ha, hb, fun x hx => hd hx, fun hx => hn (by simp [hx]),
    fun hx => hn (by simp [hx])⟩

theorem replay_pair_none {g : GLS} {s : Nat} {n : String} {a b : PTree}
    (hroot : eventAt? g n = none) :
    replay g s (.node n [a, b]) = replay g s a ++ replay g s b := by
  rw [replay_node, hroot]
  simp

theorem eventChains_pair_none {g : GLS} {n : String} {a b : PTree}
    (hroot : eventAt? g n = none) :
    eventChains g (.node n [a, b]) = eventChains g a ++ eventChains g b := by
  rw [eventChains_node, hroot]
  simp [Option.toList]

theorem eventAt?_drop_mid {eA eB : GLS} {x : String × Nat} {m : String}
    (hB : ∀ p ∈ eB, p.1 ≠ m) :
    eventAt? ((eA ++ eB) ++ [x]) m = eventAt? (eA ++ [x]) m := by
  rw [eventAt?_append, eventAt?_append, eventAt?_eq_none eB m hB, Option.or_none,
    ← eventAt?_append]

theorem eventAt?_drop_right2 {eA eB : GLS} {x : String × Nat} {m : String}
    (hB : ∀ p ∈ eB, p.1 ≠ m) (hx : x.1 ≠ m) :
    eventAt? ((eA ++ eB) ++ [x]) m = eventAt? eA m := by
  have h1 : eventAt? [x] m = none :=
    eventAt?_eq_none [x] m (fun p hp => by rw [List.mem_singleton.1 hp]; exact hx)
  rw [eventAt?_append, eventAt?_append, eventAt?_eq_none eB m hB, Option.or_none,
    h1, Option.or_none]

theorem eventAt?_drop_left_keep {eA eB : GLS} {x : String × Nat} {m : String}
    (hA : ∀ p ∈ eA, p.1 ≠ m) :
    eventAt? ((eA ++ eB) ++ [x]) m = eventAt? (eB ++ [x]) m := by
  rw [List.append_assoc, eventAt?_append, eventAt?_eq_none eA m hA, Option.none_or]

theorem tipState_binary {taxa : List String} {pap : List Nat} {n : String} {s : Nat}
    (h : tipState taxa pap n = some s) : s = 0 ∨ s = 1 := by
  unfold tipState at h
  cases hi : taxa.indexOf? n with
  | none => rw [hi] at h; exact Option.noConfusion h
  | some i =>
    rw [hi] at h
    have h' : pap[i]?.bind (fun v => some (if 1 ≤ v then 1 else 0)) = some s := h
    cases hv : pap[i]? with
    | none => rw [hv] at h'; exact Option.noConfusion h'
    | some v =>
      rw [hv] at h'
      cases Option.some.inj h'
      by_cases h1 : 1 ≤ v
      · rw [if_pos h1]; exact Or.inr rfl
      · rw [if_neg h1]; exact Or.inl rfl

/-! ### The master invariant of the bottom-up dynamic programme -/

/-- Every partial history either solver retains satisfies, simultaneously:
its state is binary; its committed events are binary and sit at proper
descendants of the current subtree root; a pending state `1` excludes any
committed gain (the `noA`/`noB` rule); replaying it yields exactly the PAP
value at every tip of the subtree; and every root-to-tip lineage of the
subtree carries at most one committed gain. -/
theorem histsGen_inv {comb : String → String → List Hist → List Hist → List Hist}
    (hcomb : CombShape comb) (taxa : List String) (pap : List Nat) :
    ∀ t : PTree, (nodeNames t).Nodup →
    ∀ hs, histsGen taxa pap comb t = some hs →
    ∀ h ∈ hs,
      (h.1 = 0 ∨ h.1 = 1) ∧
      (∀ p ∈ h.2, p.1 ∈ properNames t) ∧
      (∀ p ∈ h.2, p.2 = 0 ∨ p.2 = 1) ∧
      (h.1 = 1 → ∀ p ∈ h.2, p.2 = 0) ∧
      replay h.2 h.1 t = (allTips t).map (fun m => (m, papVal taxa pap m)) ∧
      (∀ ch ∈ eventChains h.2 t, ch.count 1 ≤ 1) := by
  intro t
  induction t using PTree.inductionOn with
  | htip n =>
    intro _ hs hhs h hmem
    rcases histsGen_tip_inv hhs with ⟨s, hts, rfl⟩
    rcases List.mem_singleton.1 hmem with rfl
    refine ⟨tipState_binary hts, by simp, by simp, by simp, ?_, ?_⟩
    · show replay [] s (.tip n) = _
      simp [replay, allTips, eventAt?_nil, papVal, hts]
    · show ∀ ch ∈ eventChains [] (.tip n), ch.count 1 ≤ 1
      simp [eventChains, eventAt?_nil, Option.toList]
  | hnode n cs ih =>
    intro hnd hs hhs h hmem
    rcases histsGen_node_inv hhs with ⟨a, b, rfl, hsA, hsB, hA, hB, rfl⟩
    rcases nodup_pair_parts hnd with ⟨hndA, hndB, hdisj, hnA, hnB⟩
    rcases hcomb _ _ _ _ _ hmem with ⟨x, hx, y, hy, hshape⟩
    obtain ⟨xs01, xnames, xev01, xgf, xrep, xch⟩ := ih a (by simp) hndA hsA hA x hx
    obtain ⟨ys01, ynames, yev01, ygf, yrep, ych⟩ := ih b (by simp) hndB hsB hB y hy
    have hxA : ∀ p ∈ x.2, p.1 ∈ nodeNames a :=
      fun p hp => properNames_subset_nodeNames a (xnames p hp)
    have hyB : ∀ p ∈ y.2, p.1 ∈ nodeNames b :=
      fun p hp => properNames_subset_nodeNames b (ynames p hp)
    have hxNotB : ∀ p ∈ x.2, p.1 ∉ nodeNames b := fun p hp => hdisj _ (hxA p hp)
    have hyNotA : ∀ p ∈ y.2, p.1 ∉ nodeNames a :=
      fun p hp hmem2 => hdisj _ hmem2 (hyB p hp)
    have haNotB : a.name ∉ nodeNames b := hdisj _ (name_mem_nodeNames a)
    have hbNotA : b.name ∉ nodeNames a :=
      fun hmem2 => hdisj _ hmem2 (name_mem_nodeNames b)
    have hxNotn : ∀ p ∈ x.2, p.1 ≠ n := fun p hp he => hnA (he ▸ hxA p hp)
    have hyNotn : ∀ p ∈ y.2, p.1 ≠ n := fun p hp he => hnB (he ▸ hyB p hp)
    have haPropA : a.name ∉ properNames a := name_not_mem_properNames hndA
    have hbPropB : b.name ∉ properNames b := name_not_mem_properNames hndB
    have haneqn : a.name ≠ n := fun he => hnA (he ▸ name_mem_nodeNames a)
    have hbneqn : b.name ≠ n := fun he => hnB (he ▸ name_mem_nodeNames b)
    have hxname : ∀ p ∈ x.2, p.1 ≠ a.name :=
      fun p hp he => haPropA (he ▸ xnames p hp)
    have hyname : ∀ p ∈ y.2, p.1 ≠ b.name :=
      fun p hp he => hbPropB (he ▸ ynames p hp)
    rcases hshape with ⟨hxy, rfl⟩ | ⟨hxy, rfl, hno⟩ | ⟨hxy, rfl, hno⟩
    · -- equal states: the merged history (x.1, x.2 ++ y.2)
      have hroot : eventAt? (x.2 ++ y.2) n = none := by
        refine eventAt?_eq_none _ _ (fun p hp => ?_)
        rcases List.mem_append.1 hp with hp | hp
        · exact hxNotn p hp
        · exact hyNotn p hp
      refine ⟨xs01, ?_, ?_, ?_, ?_, ?_⟩
      · intro p hp
        rw [properNames_pair, List.mem_append]
        rcases List.mem_append.1 hp with hp | hp
        · exact Or.inl (hxA p hp)
        · exact Or.inr (hyB p hp)
      · intro p hp
        rcases List.mem_append.1 hp with hp | hp
        · exact xev01 p hp
        · exact yev01 p hp
      · intro h1 p hp
        rcases List.mem_append.1 hp with hp | hp
        · exact xgf h1 p hp
        · exact ygf (hxy ▸ h1) p hp
      · show replay (x.2 ++ y.2) x.1 (.node n [a, b]) = _
        rw [replay_pair_none hroot, replay_append_right hyNotA,
          replay_append_left hxNotB, xrep, hxy, yrep, allTips_pair, List.map_append]
      · intro ch hch
        rw [eventChains_pair_none hroot] at hch
        rcases List.mem_append.1 hch with hch | hch
        · rw [eventChains_append_right hyNotA] at hch
          exact xch ch hch
        · rw [eventChains_append_left hxNotB] at hch
          exact ych ch hch
    · -- unequal states, commit at child A, propagate the state of B
      have hroot : eventAt? ((x.2 ++ y.2) ++ [(a.name, x.1)]) n = none := by
        refine eventAt?_eq_none _ _ (fun p hp => ?_)
        rcases List.mem_append.1 hp with hp | hp
        · rcases List.mem_append.1 hp with hp | hp
          · exact hxNotn p hp
          · exact hyNotn p hp
        · rw [List.mem_singleton.1 hp]
          exact haneqn
      have hcgA : ∀ m ∈ nodeNames a,
          eventAt? ((x.2 ++ y.2) ++ [(a.name, x.1)]) m =
          eventAt? (x.2 ++ [(a.name, x.1)]) m :=
        fun m hm => eventAt?_drop_mid (fun p hp he => hyNotA p hp (he ▸ hm))
      have hcgB : ∀ m ∈ nodeNames b,
          eventAt? ((x.2 ++ y.2) ++ [(a.name, x.1)]) m = eventAt? y.2 m := by
        intro m hm
        have h1 : eventAt? ((x.2 ++ y.2) ++ [(a.name, x.1)]) m =
            eventAt? (y.2 ++ [(a.name, x.1)]) m :=
          eventAt?_drop_left_keep (fun p hp he => hxNotB p hp (he ▸ hm))
        rw [h1, eventAt?_append,
          eventAt?_eq_none [(a.name, x.1)] m (fun p hp => by
            rw [List.mem_singleton.1 hp]
            intro he
            have he2 : a.name = m := he
            exact haNotB (by rw [he2]; exact hm)), Option.or_none]
      refine ⟨ys01, ?_, ?_, ?_, ?_, ?_⟩
      · intro p hp
        rw [properNames_pair, List.mem_append]
        rcases List.mem_append.1 hp with hp | hp
        · rcases List.mem_append.1 hp with hp | hp
          · exact Or.inl (hxA p hp)
          · exact Or.inr (hyB p hp)
        · rw [List.mem_singleton.1 hp]
          exact Or.inl (name_mem_nodeNames a)
      · intro p hp
        rcases List.mem_append.1 hp with hp | hp
        · rcases List.mem_append.1 hp with hp | hp
          · exact xev01 p hp
          · exact yev01 p hp
        · rw [List.mem_singleton.1 hp]
          exact xs01
      · intro h1 p hp
        rcases (by
          rcases List.mem_append.1 hp with hp2 | hp2
          · rcases List.mem_append.1 hp2 with hp3 | hp3
            · exact xev01 p hp3
            · exact yev01 p hp3
          · rw [List.mem_singleton.1 hp2]
            exact xs01 : p.2 = 0 ∨ p.2 = 1) with h0 | h2
        · exact h0
        · exact absurd (List.mem_map.2 ⟨p, hp, h2⟩) (fun hmem3 => hno h1 hmem3)
      · show replay ((x.2 ++ y.2) ++ [(a.name, x.1)]) y.1 (.node n [a, b]) = _
        rw [replay_pair_none hroot, replay_congr hcgA y.1,
          replay_append_root hxname haPropA y.1, replay_congr hcgB y.1,
          xrep, yrep, allTips_pair, List.map_append]
      · intro ch hch
        rw [eventChains_pair_none hroot] at hch
        rcases List.mem_append.1 hch with hch | hch
        · rw [eventChains_congr hcgA, eventChains_append_root hxname haPropA] at hch
          rcases List.mem_map.1 hch with ⟨ch1, hch1, rfl⟩
          rcases xs01 with h0 | h1
          · rw [h0]
            simpa [List.count_cons] using xch ch1 hch1
          · have hzero : ch1.count 1 = 0 := by
              rw [List.count_eq_zero]
              intro hmem3
              rcases eventChains_values hch1 1 hmem3 with ⟨p, hp, hp2⟩
              have := xgf h1 p hp
              omega
            rw [h1]
            simp [List.count_cons, hzero]
        · rw [eventChains_congr hcgB] at hch
          exact ych ch hch
    · -- unequal states, commit at child B, propagate the state of A
      have hroot : eventAt? ((x.2 ++ y.2) ++ [(b.name, y.1)]) n = none := by
        refine eventAt?_eq_none _ _ (fun p hp => ?_)
        rcases List.mem_append.1 hp with hp | hp
        · rcases List.mem_append.1 hp with hp | hp
          · exact hxNotn p hp
          · exact hyNotn p hp
        · rw [List.mem_singleton.1 hp]
          exact hbneqn
      have hcgA : ∀ m ∈ nodeNames a,
          eventAt? ((x.2 ++ y.2) ++ [(b.name, y.1)]) m = eventAt? x.2 m := by
        intro m hm
        refine eventAt?_drop_right2 (fun p hp he => hyNotA p hp (he ▸ hm)) ?_
        intro he
        have he2 : b.name = m := he
        exact hbNotA (by rw [he2]; exact hm)
      have hcgB : ∀ m ∈ nodeNames b,
          eventAt? ((x.2 ++ y.2) ++ [(b.name, y.1)]) m =
          eventAt? (y.2 ++ [(b.name, y.1)]) m :=
        fun m hm => eventAt?_drop_left_keep (fun p hp he => hxNotB p hp (he ▸ hm))
      refine ⟨xs01, ?_, ?_, ?_, ?_, ?_⟩
      · intro p hp
        rw [properNames_pair, List.mem_append]
        rcases List.mem_append.1 hp with hp | hp
        · rcases List.mem_append.1 hp with hp | hp
          · exact Or.inl (hxA p hp)
          · exact Or.inr (hyB p hp)
        · rw [List.mem_singleton.1 hp]
          exact Or.inr (name_mem_nodeNames b)
      · intro p hp
        rcases List.mem_append.1 hp with hp | hp
        · rcases List.mem_append.1 hp with hp | hp
          · exact xev01 p hp
          · exact yev01 p hp
        · rw [List.mem_singleton.1 hp]
          exact ys01
      · intro h1 p hp
        rcases (by
          rcases List.mem_append.1 hp with hp2 | hp2
          · rcases List.mem_append.1 hp2 with hp3 | hp3
            · exact xev01 p hp3
            · exact yev01 p hp3
          · rw [List.mem_singleton.1 hp2]
            exact ys01 : p.2 = 0 ∨ p.2 = 1) with h0 | h2
        · exact h0
        · exact absurd (List.mem_map.2 ⟨p, hp, h2⟩) (fun hmem3 => hno h1 hmem3)
      · show replay ((x.2 ++ y.2) ++ [(b.name, y.1)]) x.1 (.node n [a, b]) = _
        rw [replay_pair_none hroot, replay_congr hcgA x.1, replay_congr hcgB x.1,
          replay_append_root hyname hbPropB x.1, xrep, yrep, allTips_pair,
          List.map_append]
      · intro ch hch
        rw [eventChains_pair_none hroot] at hch
        rcases List.mem_append.1 hch with hch | hch
        · rw [eventChains_congr hcgA] at hch
          exact xch ch hch
        · rw [eventChains_congr hcgB, eventChains_append_root hyname hbPropB] at hch
          rcases List.mem_map.1 hch with ⟨ch1, hch1, rfl⟩
          rcases ys01 with h0 | h1
          · rw [h0]
            simpa [List.count_cons] using ych ch1 hch1
          · have hzero : ch1.count 1 = 0 := by
              rw [List.count_eq_zero]
              intro hmem3
              rcases eventChains_values hch1 1 hmem3 with ⟨p, hp, hp2⟩
              have := ygf h1 p hp
              omega
            rw [h1]
            simp [List.count_cons, hzero]

/-! ### Inversion of the two solvers -/

theorem lcaT_inv {names : List String} {t sub : PTree} (h : lcaT names t = some sub) :
    posCountT names t ≠ 0 ∧ sub = lcaDescend names t := by
  unfold lcaT at h
  by_cases h0 : posCountT names t = 0
  · rw [if_pos h0] at h
    exact absurd h (by simp)
  · rw [if_neg h0] at h
    exact ⟨h0, (Option.some.inj h).symm⟩

theorem getWeightedGLS_inv {taxa : List String} {pap : List Nat} {gw lw : Nat}
    {tree : PTree} {gls : GLS} (h : getWeightedGLS taxa pap gw lw tree = some gls) :
    ∃ pos sub sts, posNames taxa pap = some pos ∧ lcaT pos tree = some sub ∧
      optMapM (tipState taxa pap) (tipsOf sub) = some sts ∧
      ((sts.sum = sts.length ∧ gls = [(sub.name, 1)]) ∨
       (sts.sum ≠ sts.length ∧ ∃ hs,
         histsGen taxa pap (combineW gw lw (maxWeightOf pap gw lw)) sub = some hs ∧
         finishW gw lw sub.name hs = some gls)) := by
  unfold getWeightedGLS at h
  cases hpos : posNames taxa pap with
  | none => rw [hpos] at h; exact Option.noConfusion h
  | some pos =>
    rw [hpos] at h
    have h1 : (lcaT pos tree).bind (fun sub =>
        (optMapM (tipState taxa pap) (tipsOf sub)).bind (fun sts =>
          if sts.sum = sts.length then some [(sub.name, 1)]
          else (histsGen taxa pap (combineW gw lw (maxWeightOf pap gw lw)) sub).bind
            (fun hs => finishW gw lw sub.name hs))) = some gls := h
    cases hlca : lcaT pos tree with
    | none => rw [hlca] at h1; exact Option.noConfusion h1
    | some sub =>
      rw [hlca] at h1
      have h2 : (optMapM (tipState taxa pap) (tipsOf sub)).bind (fun sts =>
          if sts.sum = sts.length then some [(sub.name, 1)]
          else (histsGen taxa pap (combineW gw lw (maxWeightOf pap gw lw)) sub).bind
            (fun hs => finishW gw lw sub.name hs)) = some gls := h1
      cases hsts : optMapM (tipState taxa pap) (tipsOf sub) with
      | none => rw [hsts] at h2; exact Option.noConfusion h2
      | some sts =>
        rw [hsts] at h2
        have h3 : (if sts.sum = sts.length then some [(sub.name, 1)]
            else (histsGen taxa pap (combineW gw lw (maxWeightOf pap gw lw)) sub).bind
              (fun hs => finishW gw lw sub.name hs)) = some gls := h2
        refine ⟨pos, sub, sts, rfl, hlca, hsts, ?_⟩
        split_ifs at h3 with hsum
        · exact Or.inl ⟨hsum, (Option.some.inj h3).symm⟩
        · refine Or.inr ⟨hsum, ?_⟩
          cases hhs : histsGen taxa pap (combineW gw lw (maxWeightOf pap gw lw)) sub with
          | none => rw [hhs] at h3; exact Option.noConfusion h3
          | some hs =>
            rw [hhs] at h3
            exact ⟨hs, rfl, h3⟩

theorem getRestrictedGLS_inv {taxa : List String} {pap : List Nat} {k : Nat}
    {tree : PTree} {gls : GLS} (h : getRestrictedGLS taxa pap k tree = some gls) :
    ∃ pos sub sts, posNames taxa pap = some pos ∧ lcaT pos tree = some sub ∧
      optMapM (tipState taxa pap) (tipsOf sub) = some sts ∧
      ((sts.sum = sts.length ∧ gls = [(sub.name, 1)]) ∨
       (sts.sum ≠ sts.length ∧ ∃ hs,
         histsGen taxa pap (combineR k) sub = some hs ∧
         finishR sub.name hs = some gls)) := by
  unfold getRestrictedGLS at h
  cases hpos : posNames taxa pap with
  | none => rw [hpos] at h; exact Option.noConfusion h
  | some pos =>
    rw [hpos] at h
    have h1 : (lcaT pos tree).bind (fun sub =>
        (optMapM (tipState taxa pap) (tipsOf sub)).bind (fun sts =>
          if sts.sum = sts.length then some [(sub.name, 1)]
          else (histsGen taxa pap (combineR k) sub).bind
            (fun hs => finishR sub.name hs))) = some gls := h
    cases hlca : lcaT pos tree with
    | none => rw [hlca] at h1; exact Option.noConfusion h1
    | some sub =>
      rw [hlca] at h1
      have h2 : (optMapM (tipState taxa pap) (tipsOf sub)).bind (fun sts =>
          if sts.sum = sts.length then some [(sub.name, 1)]
          else (histsGen taxa pap (combineR k) sub).bind
            (fun hs => finishR sub.name hs)) = some gls := h1
      cases hsts : optMapM (tipState taxa pap) (tipsOf sub) with
      | none => rw [hsts] at h2; exact Option.noConfusion h2
      | some sts =>
        rw [hsts] at h2
        have h3 : (if sts.sum = sts.length then some [(sub.name, 1)]
            else (histsGen taxa pap (combineR k) sub).bind
              (fun hs => finishR sub.name hs)) = some gls := h2
        refine ⟨pos, sub, sts, rfl, hlca, hsts, ?_⟩
        split_ifs at h3 with hsum
        · exact Or.inl ⟨hsum, (Option.some.inj h3).symm⟩
        · refine Or.inr ⟨hsum, ?_⟩
          cases hhs : histsGen taxa pap (combineR k) sub with
          | none => rw [hhs] at h3; exact Option.noConfusion h3
          | some hs =>
            rw [hhs] at h3
            exact ⟨hs, rfl, h3⟩

/-! ### Shortcut facts -/

theorem optMapM_mem_rev {f : α → Option β} :
    ∀ {l : List α} {ys : List β}, optMapM f l = some ys →
      ∀ y ∈ ys, ∃ x ∈ l, f x = some y := by
  intro l
  induction l with
  | nil =>
    intro ys h y hy
    cases Option.some.inj h
    exact absurd hy (List.not_mem_nil y)
  | cons a xs ih =>
    intro ys h y hy
    have h' : (f a).bind (fun z => (optMapM f xs).bind (fun t => some (z :: t))) = some ys := h
    cases hf : f a with
    | none => rw [hf] at h'; exact Option.noConfusion h'
    | some z =>
      rw [hf] at h'
      have h'' : (optMapM f xs).bind (fun t => some (z :: t)) = some ys := h'
      cases hm : optMapM f xs with
      | none => rw [hm] at h''; exact Option.noConfusion h''
      | some t =>
        rw [hm] at h''
        cases Option.some.inj h''
        rcases List.mem_cons.1 hy with rfl | hy
        · exact ⟨a, by simp, hf⟩
        · rcases ih hm y hy with ⟨x, hx, hfx⟩
          exact ⟨x, by simp [hx], hfx⟩

theorem sum_le_length_of_binary : ∀ {l : List Nat},
    (∀ v ∈ l, v = 0 ∨ v = 1) → l.sum ≤ l.length := by
  intro l
  induction l with
  | nil => intro _; simp
  | cons x t ih =>
    intro h
    have hx := h x (by simp)
    have ht := ih (fun v hv => h v (by simp [hv]))
    simp only [List.sum_cons, List.length_cons]
    omega

theorem all_one_of_sum_eq_length : ∀ {l : List Nat},
    (∀ v ∈ l, v = 0 ∨ v = 1) → l.sum = l.length → ∀ v ∈ l, v = 1 := by
  intro l
  induction l with
  | nil => intro _ _ v hv; exact absurd hv (List.not_mem_nil v)
  | cons x t ih =>
    intro hb hs v hv
    have hx := hb x (by simp)
    have hbt : ∀ w ∈ t, w = 0 ∨ w = 1 := fun w hw => hb w (by simp [hw])
    have hle := sum_le_length_of_binary hbt
    simp only [List.sum_cons, List.length_cons] at hs
    have hx1 : x = 1 := by omega
    have hts : t.sum = t.length := by omega
    rcases List.mem_cons.1 hv with rfl | hv
    · exact hx1
    · exact ih hbt hts v hv

/-- When the tip-state sum equals the tip count, every tip of the list is
present. -/
theorem tipStates_all_one {taxa : List String} {pap : List Nat}
    {l : List String} {sts : List Nat}
    (h : optMapM (tipState taxa pap) l = some sts) (hsum : sts.sum = sts.length) :
    ∀ n ∈ l, tipState taxa pap n = some 1 := by
  have hb : ∀ v ∈ sts, v = 0 ∨ v = 1 := by
    intro v hv
    rcases optMapM_mem_rev h v hv with ⟨x, _, hfx⟩
    exact tipState_binary hfx
  intro n hn
  rcases optMapM_mem h n hn with ⟨v, hv, hfv⟩
  rw [hfv, all_one_of_sum_eq_length hb hsum v hv]

theorem tipsOf_node (n : String) (cs : List PTree) :
    tipsOf (.node n cs) = allTips (.node n cs) := rfl

theorem replay_single_gain {t : PTree} (hnd : (nodeNames t).Nodup) :
    replay [(t.name, 1)] 0 t = (allTips t).map (fun m => (m, 1)) := by
  rw [show ([(t.name, 1)] : GLS) = (t.name, 1) :: [] from rfl,
    replay_cons_root (fun p hp => absurd hp (List.not_mem_nil p))
      (name_not_mem_properNames hnd) 0, replay_nil]

theorem eventChains_single_gain {t : PTree} (hnd : (nodeNames t).Nodup) :
    eventChains [(t.name, 1)] t = (allTips t).map (fun _ => [1]) := by
  rw [show ([(t.name, 1)] : GLS) = (t.name, 1) :: [] from rfl,
    eventChains_cons_root (fun p hp => absurd hp (List.not_mem_nil p))
      (name_not_mem_properNames hnd), eventChains_nil, List.map_map]
  rfl

/-! ### Positive taxa and the LCA subtree -/

theorem lcaDescend_posCount (names : List String) :
    ∀ t : PTree, posCountT names (lcaDescend names t) = posCountT names t := by
  intro t
  induction t using PTree.inductionOn with
  | htip n => rfl
  | hnode n cs ih =>
    rw [lcaDescend]
    have aux : ∀ (ds : List PTree), (∀ c ∈ ds, c ∈ cs) →
        posCountT names
          (lcaDescendF names (posCountT names (.node n cs)) (.node n cs) ds) =
        posCountT names (.node n cs) := by
      intro ds
      induction ds with
      | nil => intro _; rfl
      | cons c ds ihd =>
        intro hds
        rw [lcaDescendF]
        by_cases hc : posCountT names c = posCountT names (.node n cs)
        · rw [if_pos (beq_iff_eq.2 hc)]
          rw [ih c (hds c (by simp)), hc]
        · rw [if_neg (fun hb => hc (beq_iff_eq.1 hb))]
          exact ihd (fun d hd => hds d (by simp [hd]))
    exact aux cs (fun c hc => hc)

theorem posCountT_tip_pos {names : List String} {m : String}
    (h : posCountT names (.tip m) ≠ 0) : m ∈ names := by
  unfold posCountT at h
  simp only [allTips, List.countP_cons, List.countP_nil] at h
  by_cases hc : names.contains m = true
  · simpa using hc
  · rw [if_neg hc] at h
    omega

theorem zip_lookup {x : String} {v : Nat} :
    ∀ {taxa : List String} {pap : List Nat}, taxa.Nodup → (x, v) ∈ taxa.zip pap →
    ∃ i, taxa.indexOf? x = some i ∧ pap[i]? = some v := by
  intro taxa
  induction taxa with
  | nil => intro pap _ h; simp at h
  | cons t ts ih =>
    intro pap hnd h
    cases pap with
    | nil => simp at h
    | cons w ws =>
      rw [List.zip_cons_cons] at h
      rcases List.mem_cons.1 h with he | hmem
      · have hx : x = t := congrArg Prod.fst he
        have hv : v = w := congrArg Prod.snd he
        subst hx; subst hv
        refine ⟨0, ?_, ?_⟩
        · simp [List.indexOf?, List.findIdx?_cons]
        · simp
      · have hxts : x ∈ ts := (List.of_mem_zip hmem).1
        have hxt : x ≠ t := by
          intro he2
          exact (List.nodup_cons.1 hnd).1 (he2 ▸ hxts)
        rcases ih (List.nodup_cons.1 hnd).2 hmem with ⟨i, hi, hv⟩
        refine ⟨i + 1, ?_, by simpa using hv⟩
        have hbt : (t == x) = false := beq_eq_false_iff_ne.2 (fun he2 => hxt he2.symm)
        have hi2 : ts.findIdx? (fun y => y == x) = some i := hi
        simp [List.indexOf?, List.findIdx?_cons, hbt, hi2]

theorem tipState_of_posName {taxa : List String} {pap : List Nat} {pos : List String}
    (hnd : taxa.Nodup) (hpos : posNames taxa pap = some pos) {m : String}
    (hm : m ∈ pos) : tipState taxa pap m = some 1 := by
  unfold posNames at hpos
  split_ifs at hpos with hlen
  · cases Option.some.inj hpos
    rcases List.mem_map.1 hm with ⟨q, hq, rfl⟩
    have hq1 : 1 ≤ q.2 := by simpa using List.of_mem_filter hq
    rcases zip_lookup hnd (List.mem_of_mem_filter hq) with ⟨i, hi, hv⟩
    unfold tipState
    rw [hi]
    show pap[i]?.bind (fun v => some (if 1 ≤ v then 1 else 0)) = some 1
    simp [hv, hq1]

/-! ### From retained histories to emitted scenarios -/

theorem scenario_replay {taxa : List String} {pap : List Nat} {sub : PTree}
    {hs : List Hist} {h : Hist}
    {comb : String → String → List Hist → List Hist → List Hist}
    (hcomb : CombShape comb) (hnd : (nodeNames sub).Nodup)
    (hhs : histsGen taxa pap comb sub = some hs) (hmem : h ∈ hs) :
    replay (scenarioOf sub.name h) 0 sub =
      (allTips sub).map (fun m => (m, papVal taxa pap m)) := by
  obtain ⟨hs01, hnames, _, _, hrep, _⟩ := histsGen_inv hcomb taxa pap sub hnd hs hhs h hmem
  unfold scenarioOf
  rcases hs01 with h0 | h1
  · rw [if_neg (by omega), ← hrep, h0]
  · rw [if_pos h1]
    have hg : ∀ p ∈ h.2, p.1 ≠ sub.name :=
      fun p hp he => name_not_mem_properNames hnd (he ▸ hnames p hp)
    rw [replay_cons_root hg (name_not_mem_properNames hnd) 0, ← hrep, h1]

theorem scenario_chains {taxa : List String} {pap : List Nat} {sub : PTree}
    {hs : List Hist} {h : Hist}
    {comb : String → String → List Hist → List Hist → List Hist}
    (hcomb : CombShape comb) (hnd : (nodeNames sub).Nodup)
    (hhs : histsGen taxa pap comb sub = some hs) (hmem : h ∈ hs) :
    ∀ ch ∈ eventChains (scenarioOf sub.name h) sub, ch.count 1 ≤ 1 := by
  obtain ⟨hs01, hnames, _, hgf, _, hch⟩ := histsGen_inv hcomb taxa pap sub hnd hs hhs h hmem
  unfold scenarioOf
  rcases hs01 with h0 | h1
  · rw [if_neg (by omega)]
    exact hch
  · rw [if_pos h1]
    intro ch hcm
    have hg : ∀ p ∈ h.2, p.1 ≠ sub.name :=
      fun p hp he => name_not_mem_properNames hnd (he ▸ hnames p hp)
    rw [eventChains_cons_root hg (name_not_mem_properNames hnd)] at hcm
    rcases List.mem_map.1 hcm with ⟨ch1, hch1, rfl⟩
    have hzero : ch1.count 1 = 0 := by
      rw [List.count_eq_zero]
      intro hmem3
      rcases eventChains_values hch1 1 hmem3 with ⟨p, hp, hp2⟩
      have := hgf h1 p hp
      omega
    simp [List.count_cons, hzero]

theorem shortcut_replay {taxa : List String} {pap : List Nat} {sub : PTree}
    (hnd : (nodeNames sub).Nodup)
    (hall : ∀ m ∈ allTips sub, tipState taxa pap m = some 1) :
    replay [(sub.name, 1)] 0 sub =
      (allTips sub).map (fun m => (m, papVal taxa pap m)) := by
  rw [replay_single_gain hnd]
  refine List.map_congr_left (fun m hm => ?_)
  simp [papVal, hall m hm]

/-- The per-solver reconstruction fact, generic in the combination step. -/
theorem reconstruction_of_inv {taxa : List String} {pap : List Nat}
    {pos : List String} {tree sub : PTree} {sts : List Nat} {gls : GLS}
    {comb : String → String → List Hist → List Hist → List Hist}
    (hcomb : CombShape comb) (htaxa : taxa.Nodup) (hnd : (nodeNames sub).Nodup)
    (hpos : posNames taxa pap = some pos) (hlca : lcaT pos tree = some sub)
    (hsts : optMapM (tipState taxa pap) (tipsOf sub) = some sts)
    (hd : (sts.sum = sts.length ∧ gls = [(sub.name, 1)]) ∨
      (sts.sum ≠ sts.length ∧ ∃ hs, histsGen taxa pap comb sub = some hs ∧
        ∃ a ∈ hs, gls = scenarioOf sub.name a)) :
    replay gls 0 sub = (allTips sub).map (fun m => (m, papVal taxa pap m)) := by
  rcases hd with ⟨hsum, rfl⟩ | ⟨_, hs, hhs, a, ha, rfl⟩
  · cases sub with
    | tip m =>
      rcases lcaT_inv hlca with ⟨hc0, hsub⟩
      have hcn : posCountT pos (.tip m) ≠ 0 := by
        rw [hsub, lcaDescend_posCount]
        exact hc0
      have hmem := posCountT_tip_pos hcn
      have hts := tipState_of_posName htaxa hpos hmem
      show replay [(m, 1)] 0 (.tip m) = _
      simp [replay, allTips, eventAt?_cons, papVal, hts, PTree.name]
    | node n cs =>
      have hall : ∀ m ∈ allTips (.node n cs), tipState taxa pap m = some 1 := by
        intro m hm
        exact tipStates_all_one hsts hsum m (by rw [tipsOf_node]; exact hm)
      exact shortcut_replay hnd hall
  · exact scenario_replay hcomb hnd hhs ha

/-- Claim C1: for every non-singleton PAP and both solvers, replaying the
returned GLS top-down from the LCA subtree of the positive taxa (with an
implicit initial state `0`, so that an explicit gain listed at the subtree
root takes effect there) reproduces the PAP value at every tip of that
subtree. -/
theorem C1_gls_reconstruction (taxa : List String) (pap : List Nat)
    (gw lw k : Nat) (tree sub : PTree) (pos : List String)
    (htaxa : taxa.Nodup) (hnd : (nodeNames sub).Nodup)
    (hpos : posNames taxa pap = some pos) (hlca : lcaT pos tree = some sub) :
    (∀ gls, getWeightedGLS taxa pap gw lw tree = some gls →
      replay gls 0 sub = (allTips sub).map (fun m => (m, papVal taxa pap m))) ∧
    (∀ gls, getRestrictedGLS taxa pap k tree = some gls →
      replay gls 0 sub = (allTips sub).map (fun m => (m, papVal taxa pap m))) := by
  constructor
  · intro gls h
    rcases getWeightedGLS_inv h with ⟨pos2, sub2, sts, hpos2, hlca2, hsts, hd⟩
    rw [hpos2] at hpos
    cases Option.some.inj hpos
    rw [hlca2] at hlca
    cases Option.some.inj hlca
    refine reconstruction_of_inv (combShape_combineW gw lw (maxWeightOf pap gw lw))
      htaxa hnd hpos2 hlca2 hsts ?_
    rcases hd with hleft | ⟨hsum, hs, hhs, hfin⟩
    · exact Or.inl hleft
    · refine Or.inr ⟨hsum, hs, hhs, ?_⟩
      rcases finishW_mem hfin with ⟨a, ha, rfl⟩
      exact ⟨a, ha, rfl⟩
  · intro gls h
    rcases getRestrictedGLS_inv h with ⟨pos2, sub2, sts, hpos2, hlca2, hsts, hd⟩
    rw [hpos2] at hpos
    cases Option.some.inj hpos
    rw [hlca2] at hlca
    cases Option.some.inj hlca
    refine reconstruction_of_inv (combShape_combineR k) htaxa hnd hpos2 hlca2 hsts ?_
    rcases hd with hleft | ⟨hsum, hs, hhs, hfin⟩
    · exact Or.inl hleft
    · refine Or.inr ⟨hsum, hs, hhs, ?_⟩
      rcases finishR_mem hfin with ⟨a, ha, rfl⟩
      exact ⟨a, ha, rfl⟩

/-- Witness for C1: the spec's Scenario A, on both solvers. -/
theorem C1_witness :
    replay [("root", 1), ("b", 0)] 0 treeA =
      (allTips treeA).map (fun m => (m, papVal ["a", "b", "c"] [1, 0, 1] m)) ∧
    replay [("a", 1), ("c", 1)] 0 treeA =
      (allTips treeA).map (fun m => (m, papVal ["a", "b", "c"] [1, 0, 1] m)) := by
  have h := C1_gls_reconstruction ["a", "b", "c"] [1, 0, 1] 1 1 3 treeA treeA
    ["a", "c"] (by decide) (by decide) (by rfl) (by rfl)
  exact ⟨h.1 [("root", 1), ("b", 0)] (by rfl), h.2 [("a", 1), ("c", 1)] (by rfl)⟩

theorem chains_of_scenarios {taxa : List String} {pap : List Nat} {sub : PTree}
    {gls : GLS} {comb : String → String → List Hist → List Hist → List Hist}
    (hcomb : CombShape comb) (hnd : (nodeNames sub).Nodup)
    (hd : gls = [(sub.name, 1)] ∨ ∃ hs, histsGen taxa pap comb sub = some hs ∧
      ∃ a ∈ hs, gls = scenarioOf sub.name a) :
    ∀ ch ∈ eventChains gls sub, ch.count 1 ≤ 1 := by
  rcases hd with rfl | ⟨hs, hhs, a, ha, rfl⟩
  · intro ch hch
    rw [eventChains_single_gain hnd] at hch
    rcases List.mem_map.1 hch with ⟨m, _, rfl⟩
    simp
  · exact scenario_chains hcomb hnd hhs ha

theorem chain'_of_count_le_one : ∀ {ch : List Nat}, ch.count 1 ≤ 1 →
    List.Chain' (fun a b => ¬(a = 1 ∧ b = 1)) ch := by
  intro ch
  induction ch with
  | nil => intro _; exact List.chain'_nil
  | cons x t iht =>
    intro h
    cases t with
    | nil => simp
    | cons y u =>
      rw [List.chain'_cons]
      constructor
      · rintro ⟨rfl, rfl⟩
        simp [List.count_cons] at h
      · refine iht ?_
        refine le_trans ?_ h
        simp [List.count_cons]

/-- Claim C4: for both solvers, no root-to-tip lineage of the LCA subtree
carries two listed gain events without an intervening listed loss: along
every lineage, the sequence of listed events never has two consecutive
entries equal to `1` (in fact each lineage lists at most one gain). -/
theorem C4_no_redundant_gain (taxa : List String) (pap : List Nat)
    (gw lw k : Nat) (tree sub : PTree) (pos : List String)
    (hnd : (nodeNames sub).Nodup)
    (hpos : posNames taxa pap = some pos) (hlca : lcaT pos tree = some sub) :
    (∀ gls, getWeightedGLS taxa pap gw lw tree = some gls →
      ∀ ch ∈ eventChains gls sub, List.Chain' (fun a b => ¬(a = 1 ∧ b = 1)) ch) ∧
    (∀ gls, getRestrictedGLS taxa pap k tree = some gls →
      ∀ ch ∈ eventChains gls sub, List.Chain' (fun a b => ¬(a = 1 ∧ b = 1)) ch) := by
  constructor
  · intro gls h ch hch
    rcases getWeightedGLS_inv h with ⟨pos2, sub2, sts, hpos2, hlca2, hsts, hd⟩
    rw [hpos2] at hpos
    cases Option.some.inj hpos
    rw [hlca2] at hlca
    cases Option.some.inj hlca
    have hd2 : gls = [(sub.name, 1)] ∨
        ∃ hs, histsGen taxa pap (combineW gw lw (maxWeightOf pap gw lw)) sub = some hs ∧
          ∃ a ∈ hs, gls = scenarioOf sub.name a := by
      rcases hd with ⟨_, rfl⟩ | ⟨_, hs, hhs, hfin⟩
      · exact Or.inl rfl
      · rcases finishW_mem hfin with ⟨a, ha, rfl⟩
        exact Or.inr ⟨hs, hhs, a, ha, rfl⟩
    exact chain'_of_count_le_one
      (chains_of_scenarios (combShape_combineW gw lw (maxWeightOf pap gw lw)) hnd hd2 ch hch)
  · intro gls h ch hch
    rcases getRestrictedGLS_inv h with ⟨pos2, sub2, sts, hpos2, hlca2, hsts, hd⟩
    rw [hpos2] at hpos
    cases Option.some.inj hpos
    rw [hlca2] at hlca
    cases Option.some.inj hlca
    have hd2 : gls = [(sub.name, 1)] ∨
        ∃ hs, histsGen taxa pap (combineR k) sub = some hs ∧
          ∃ a ∈ hs, gls = scenarioOf sub.name a := by
      rcases hd with ⟨_, rfl⟩ | ⟨_, hs, hhs, hfin⟩
      · exact Or.inl rfl
      · rcases finishR_mem hfin with ⟨a, ha, rfl⟩
        exact Or.inr ⟨hs, hhs, a, ha, rfl⟩
    exact chain'_of_count_le_one
      (chains_of_scenarios (combShape_combineR k) hnd hd2 ch hch)

/-- Witness for C4: the spec's Scenario A, on both solvers. -/
theorem C4_witness :
    (∀ ch ∈ eventChains [("root", 1), ("b", 0)] treeA,
      List.Chain' (fun a b => ¬(a = 1 ∧ b = 1)) ch) ∧
    (∀ ch ∈ eventChains [("a", 1), ("c", 1)] treeA,
      List.Chain' (fun a b => ¬(a = 1 ∧ b = 1)) ch) := by
  have h := C4_no_redundant_gain ["a", "b", "c"] [1, 0, 1] 1 1 3 treeA treeA
    ["a", "c"] (by decide) (by rfl) (by rfl)
  exact ⟨h.1 [("root", 1), ("b", 0)] (by rfl), h.2 [("a", 1), ("c", 1)] (by rfl)⟩


theorem weight_expr_eq (gw lw : Nat) (l : GLS) (s : Nat) :
    (List.count 1 (l.map (fun p => p.2) ++ (if s = 1 then [1] else []))) * gw +
      (List.count 0 (l.map (fun p => p.2) ++ (if s = 1 then [1] else []))) * lw =
    costW gw lw l + (if s = 1 then gw else 0) := by
  by_cases h1 : s = 1
  · rw [if_pos h1, if_pos h1]
    simp only [costW, List.count_append, count_map_snd]
    have e1 : List.count 1 ([1] : List Nat) = 1 := by decide
    have e0 : List.count 0 ([1] : List Nat) = 0 := by decide
    rw [e1, e0]
    ring
  · rw [if_neg h1, if_neg h1]
    simp only [costW, List.append_nil, count_map_snd, Nat.add_zero]

theorem combineW_bound (gw lw maxW : Nat) (nA nB : String) (hsA hsB : List Hist) :
    ∀ h ∈ combineW gw lw maxW nA nB hsA hsB,
      costW gw lw h.2 + (if h.1 = 1 then gw else 0) ≤ maxW := by
  intro h hmem
  simp only [combineW, List.mem_flatMap] at hmem
  rcases hmem with ⟨a, _, b, _, hmem⟩
  by_cases hab : a.1 = b.1
  · rw [if_pos hab] at hmem
    rcases mem_ite_singleton_cond hmem with ⟨rfl, hc⟩
    show costW gw lw (a.2 ++ b.2) + (if a.1 = 1 then gw else 0) ≤ maxW
    rw [← weight_expr_eq gw lw (a.2 ++ b.2) a.1]
    exact hc
  · rw [if_neg hab] at hmem
    rcases List.mem_append.1 hmem with hm | hm
    · rcases mem_ite_singleton_cond hm with ⟨rfl, hc⟩
      show costW gw lw (a.2 ++ b.2 ++ [(nA, a.1)]) +
        (if b.1 = 1 then gw else 0) ≤ maxW
      rw [← weight_expr_eq gw lw (a.2 ++ b.2 ++ [(nA, a.1)]) b.1]
      exact hc.1
    · rcases mem_ite_singleton_cond hm with ⟨rfl, hc⟩
      show costW gw lw (a.2 ++ b.2 ++ [(nB, b.1)]) +
        (if a.1 = 1 then gw else 0) ≤ maxW
      rw [← weight_expr_eq gw lw (a.2 ++ b.2 ++ [(nB, b.1)]) a.1]
      exact hc.1

theorem histsGen_costW_le {taxa : List String} {pap : List Nat}
    {gw lw maxW : Nat} {t : PTree} {hs : List Hist} (hgw : gw ≤ maxW)
    (hhs : histsGen taxa pap (combineW gw lw maxW) t = some hs) :
    ∀ h ∈ hs, costW gw lw h.2 + (if h.1 = 1 then gw else 0) ≤ maxW := by
  intro h hmem
  cases t with
  | tip n =>
    rcases histsGen_tip_inv hhs with ⟨s, _, rfl⟩
    rcases List.mem_singleton.1 hmem with rfl
    show costW gw lw [] + (if s = 1 then gw else 0) ≤ maxW
    by_cases hs1 : s = 1
    · simpa [costW, hs1] using hgw
    · simp [costW, hs1]
  | node n cs =>
    rcases histsGen_node_inv hhs with ⟨a, b, rfl, hsA, hsB, hA, hB, rfl⟩
    exact combineW_bound gw lw maxW a.name b.name hsA hsB h hmem

theorem costW_scenarioOf (gw lw : Nat) (r : String) (h : Hist) :
    costW gw lw (scenarioOf r h) = costW gw lw h.2 + (if h.1 = 1 then gw else 0) := by
  unfold scenarioOf
  by_cases h1 : h.1 = 1
  · rw [if_pos h1, if_pos h1]
    simp only [costW, List.countP_cons]
    norm_num
    ring
  · rw [if_neg h1, if_neg h1]
    simp

theorem costW_singleton_gain (gw lw : Nat) (n : String) :
    costW gw lw [(n, 1)] = gw := by
  simp [costW]

theorem one_mem_pap {taxa : List String} {pap : List Nat} {pos : List String}
    {tree sub : PTree} (hbin : ∀ v ∈ pap, v = 0 ∨ v = 1)
    (hpos : posNames taxa pap = some pos) (hlca : lcaT pos tree = some sub) :
    1 ∈ pap := by
  have hne := (lcaT_inv hlca).1
  unfold posCountT at hne
  rcases List.countP_pos_iff.1 (Nat.pos_of_ne_zero hne) with ⟨m, _, hmc⟩
  have hm : m ∈ pos := by simpa using hmc
  unfold posNames at hpos
  by_cases hlen : taxa.length ≤ pap.length
  · rw [if_pos hlen] at hpos
    cases Option.some.inj hpos
    rcases List.mem_map.1 hm with ⟨p, hpf, rfl⟩
    have hp := List.mem_filter.1 hpf
    have hp2 : p.2 ∈ pap := (List.of_mem_zip hp.1).2
    have h12 : 1 ≤ p.2 := by simpa using hp.2
    rcases hbin p.2 hp2 with h0 | h1
    · omega
    · rw [← h1]
      exact hp2
  · rw [if_neg hlen] at hpos
    exact Option.noConfusion hpos

theorem gw_le_maxWeightOf {pap : List Nat} (gw lw : Nat) (h1 : 1 ∈ pap) :
    gw ≤ maxWeightOf pap gw lw := by
  have hc : pap.count 1 ≠ 0 := fun h0 => (List.count_eq_zero.1 h0) h1
  unfold maxWeightOf
  refine le_min ?_ (Nat.le_add_left gw _)
  calc gw = 1 * gw := (one_mul gw).symm
    _ ≤ pap.count 1 * gw := mul_le_mul_right' (Nat.one_le_iff_ne_zero.2 hc) gw

/-- Claim C3: in the weighted solver the admissibility bound is
`maxWeight = min(ones * gw, zeros * lw + gw)` with ones and zeros counted
over the full PAP vector; every partial history retained by a combination
step has accumulated cost (`gw` per committed gain, `lw` per committed
loss, plus an extra `gw` when its pending subtree-root state is `1`) at
most `maxWeight`; and for a binary PAP vector the returned GLS satisfies
`cost(GLS) ≤ maxWeight`. -/
theorem C3_weight_bound (taxa : List String) (pap : List Nat) (gw lw : Nat)
    (tree : PTree) (hbin : ∀ v ∈ pap, v = 0 ∨ v = 1) :
    maxWeightOf pap gw lw = min (pap.count 1 * gw) (pap.count 0 * lw + gw) ∧
    (∀ nA nB hsA hsB, ∀ h ∈ combineW gw lw (maxWeightOf pap gw lw) nA nB hsA hsB,
      costW gw lw h.2 + (if h.1 = 1 then gw else 0) ≤ maxWeightOf pap gw lw) ∧
    (∀ gls, getWeightedGLS taxa pap gw lw tree = some gls →
      costW gw lw gls ≤ maxWeightOf pap gw lw) := by
  refine ⟨rfl, ?_, ?_⟩
  · intro nA nB hsA hsB h hmem
    exact combineW_bound gw lw (maxWeightOf pap gw lw) nA nB hsA hsB h hmem
  · intro gls h
    rcases getWeightedGLS_inv h with ⟨pos, sub, sts, hpos, hlca, hsts, hd⟩
    have h1p : 1 ∈ pap := one_mem_pap hbin hpos hlca
    have hgw := gw_le_maxWeightOf gw lw h1p
    rcases hd with ⟨_, rfl⟩ | ⟨_, hs, hhs, hfin⟩
    · rw [costW_singleton_gain]
      exact hgw
    · rcases finishW_mem hfin with ⟨a, ha, rfl⟩
      rw [costW_scenarioOf]
      exact histsGen_costW_le hgw hhs a ha

/-- Witness for C3: the spec's Scenario A, gain weight 1, loss weight 1. -/
theorem C3_witness :
    costW 1 1 [("root", 1), ("b", 0)] ≤ maxWeightOf [1, 0, 1] 1 1 :=
  (C3_weight_bound ["a", "b", "c"] [1, 0, 1] 1 1 treeA (by decide)).2.2
    [("root", 1), ("b", 0)] (by rfl)

theorem combineR_bound (k : Nat) (nA nB : String) (hsA hsB : List Hist) :
    ∀ h ∈ combineR k nA nB hsA hsB, gainCount h.2 + h.1 ≤ k := by
  intro h hmem
  simp only [combineR, List.mem_flatMap] at hmem
  rcases hmem with ⟨a, _, b, _, hmem⟩
  by_cases hab : a.1 = b.1
  · rw [if_pos hab] at hmem
    rcases mem_ite_singleton_cond hmem with ⟨rfl, hc⟩
    exact hc
  · rw [if_neg hab] at hmem
    rcases List.mem_append.1 hmem with hm | hm
    · rcases mem_ite_singleton_cond hm with ⟨rfl, hc⟩
      show (a.2 ++ b.2 ++ [(nA, a.1)]).countP (fun p => p.2 = 1) + b.1 ≤ k
      have hcs : (a.2 ++ b.2 ++ [(nA, a.1)]).countP (fun p => p.2 = 1) ≤
          (List.map (fun p => p.2) (a.2 ++ b.2 ++ [(nA, a.1)])).sum := by
        rw [← count_map_snd]
        exact countOne_le_sum _
      have hg := hc.1
      omega
    · rcases mem_ite_singleton_cond hm with ⟨rfl, hc⟩
      show (a.2 ++ b.2 ++ [(nB, b.1)]).countP (fun p => p.2 = 1) + a.1 ≤ k
      have hcs : (a.2 ++ b.2 ++ [(nB, b.1)]).countP (fun p => p.2 = 1) ≤
          (List.map (fun p => p.2) (a.2 ++ b.2 ++ [(nB, b.1)])).sum := by
        rw [← count_map_snd]
        exact countOne_le_sum _
      have hg := hc.1
      omega

theorem histsGen_gainCount_le {taxa : List String} {pap : List Nat} {k : Nat}
    {t : PTree} {hs : List Hist} (hk : 1 ≤ k)
    (hhs : histsGen taxa pap (combineR k) t = some hs) :
    ∀ h ∈ hs, gainCount h.2 + h.1 ≤ k := by
  intro h hmem
  cases t with
  | tip n =>
    rcases histsGen_tip_inv hhs with ⟨s, hts, rfl⟩
    rcases List.mem_singleton.1 hmem with rfl
    show gainCount [] + s ≤ k
    rcases tipState_binary hts with rfl | rfl
    · simp [gainCount]
    · simpa [gainCount] using hk
  | node n cs =>
    rcases histsGen_node_inv hhs with ⟨a, b, rfl, hsA, hsB, hA, hB, rfl⟩
    exact combineR_bound k a.name b.name hsA hsB h hmem

theorem gainCount_scenarioOf_le (r : String) (h : Hist) :
    gainCount (scenarioOf r h) ≤ gainCount h.2 + h.1 := by
  unfold scenarioOf
  by_cases h1 : h.1 = 1
  · rw [if_pos h1, h1]
    show gainCount ((r, 1) :: h.2) ≤ gainCount h.2 + 1
    simp [gainCount, List.countP_cons]
  · rw [if_neg h1]
    exact Nat.le_add_right _ _

/-- Claim C7 (amended): in the restricted solver every partial history
retained by a combination step satisfies `committed gains + pending
subtree-root state ≤ k`, and for `1 ≤ k` the returned GLS has at most `k`
gain events.  The original claim's consequence fails at `k = 0`: the
all-ones shortcut fires before the bound is consulted and returns a
one-gain GLS (see the counterexample). -/
theorem C7_restricted_bound (taxa : List String) (pap : List Nat) (k : Nat)
    (tree : PTree) (hk : 1 ≤ k) :
    (∀ nA nB hsA hsB, ∀ h ∈ combineR k nA nB hsA hsB,
      gainCount h.2 + h.1 ≤ k) ∧
    (∀ gls, getRestrictedGLS taxa pap k tree = some gls → gainCount gls ≤ k) := by
  refine ⟨fun nA nB hsA hsB => combineR_bound k nA nB hsA hsB, ?_⟩
  intro gls h
  rcases getRestrictedGLS_inv h with ⟨pos, sub, sts, hpos, hlca, hsts, hd⟩
  rcases hd with ⟨_, rfl⟩ | ⟨_, hs, hhs, hfin⟩
  · simpa [gainCount] using hk
  · rcases finishR_mem hfin with ⟨a, ha, rfl⟩
    exact le_trans (gainCount_scenarioOf_le sub.name a)
      (histsGen_gainCount_le hk hhs a ha)

/-- Witness for C7 (amended): the spec's Scenario A with `k = 3`. -/
theorem C7_witness :
    gainCount [("a", 1), ("c", 1)] ≤ 3 :=
  (C7_restricted_bound ["a", "b", "c"] [1, 0, 1] 3 treeA (by decide)).2
    [("a", 1), ("c", 1)] (by rfl)

/-- Counterexample to C7 as stated: with `k = 0` on the two-tip all-ones
tree, `get_restricted_GLS` takes the all-ones shortcut and returns a GLS
with one gain event, violating `#gains ≤ k`. -/
theorem C7_counterexample :
    getRestrictedGLS ["a", "b"] [1, 1] 0 tree2 = some [("root", 1)] ∧
    ¬gainCount [("root", 1)] ≤ 0 :=
  ⟨by rfl, by decide⟩

theorem histsGen_none_of_nonbinary
    {comb : String → String → List Hist → List Hist → List Hist}
    (taxa : List String) (pap : List Nat) :
    ∀ t : PTree, binaryB t = false → histsGen taxa pap comb t = none := by
  intro t
  induction t using PTree.inductionOn with
  | htip n =>
    intro h
    exact absurd h (by simp [binaryB])
  | hnode n cs ih =>
    intro h
    match cs, ih, h with
    | [], _, _ => rfl
    | [a], _, _ => rfl
    | a :: b :: c :: rest, _, _ => rfl
    | [a, b], ih, h =>
      have hf : binaryF [a, b] = false := by
        simpa [binaryB] using h
      have hab : binaryB a = false ∨ binaryB b = false := by
        cases ha : binaryB a with
        | false => exact Or.inl rfl
        | true =>
          cases hb : binaryB b with
          | false => exact Or.inr rfl
          | true => simp [binaryF, ha, hb] at hf
      show (histsGen taxa pap comb a).bind (fun hsA =>
        (histsGen taxa pap comb b).bind (fun hsB =>
          some (comb a.name b.name hsA hsB))) = none
      rcases hab with ha | hb
      · rw [ih a (by simp) ha]
        rfl
      · cases hA : histsGen taxa pap comb a with
        | none => rfl
        | some hsA =>
          show (histsGen taxa pap comb b).bind (fun hsB =>
            some (comb a.name b.name hsA hsB)) = none
          rw [ih b (by simp) hb]
          rfl

/-- Claim C10 (amended): when the LCA subtree is not strictly bifurcating
and the all-ones shortcut does not apply (some tip of the subtree has
`pap = 0`), both solvers fail and return no GLS.  The original claim is
too strong: on an all-ones non-bifurcating subtree the shortcut returns a
GLS before any child arity is inspected (see the counterexample). -/
theorem C10_binary_only (taxa : List String) (pap : List Nat)
    (gw lw k : Nat) (tree sub : PTree) (pos : List String) (sts : List Nat)
    (hpos : posNames taxa pap = some pos) (hlca : lcaT pos tree = some sub)
    (hsts : optMapM (tipState taxa pap) (tipsOf sub) = some sts)
    (hne : sts.sum ≠ sts.length) (hnb : binaryB sub = false) :
    getWeightedGLS taxa pap gw lw tree = none ∧
    getRestrictedGLS taxa pap k tree = none := by
  constructor
  · show (posNames taxa pap).bind (fun pos => (lcaT pos tree).bind (fun sub =>
      (optMapM (tipState taxa pap) (tipsOf sub)).bind (fun sts =>
        if sts.sum = sts.length then some [(sub.name, 1)]
        else (histsGen taxa pap (combineW gw lw (maxWeightOf pap gw lw)) sub).bind
          (fun hs => finishW gw lw sub.name hs)))) = none
    rw [hpos, Option.some_bind, hlca, Option.some_bind, hsts, Option.some_bind,
      if_neg hne, histsGen_none_of_nonbinary taxa pap sub hnb]
    rfl
  · show (posNames taxa pap).bind (fun pos => (lcaT pos tree).bind (fun sub =>
      (optMapM (tipState taxa pap) (tipsOf sub)).bind (fun sts =>
        if sts.sum = sts.length then some [(sub.name, 1)]
        else (histsGen taxa pap (combineR k) sub).bind
          (fun hs => finishR sub.name hs)))) = none
    rw [hpos, Option.some_bind, hlca, Option.some_bind, hsts, Option.some_bind,
      if_neg hne, histsGen_none_of_nonbinary taxa pap sub hnb]
    rfl

/-- Witness for C10 (amended): on the trifurcating tree `(a,b,c)root` with
PAP `[1,0,1]`, both solvers fail. -/
theorem C10_witness :
    getWeightedGLS ["a", "b", "c"] [1, 0, 1] 1 1 tree3 = none ∧
    getRestrictedGLS ["a", "b", "c"] [1, 0, 1] 3 tree3 = none :=
  C10_binary_only ["a", "b", "c"] [1, 0, 1] 1 1 3 tree3 tree3 ["a", "c"]
    [1, 0, 1] (by rfl) (by rfl) (by rfl) (by decide) (by rfl)

/-- Counterexample to C10 as stated: on the trifurcating tree `(a,b,c)root`
with the all-ones PAP both solvers return a GLS instead of failing, because
the all-ones shortcut never inspects the children. -/
theorem C10_counterexample :
    binaryB tree3 = false ∧
    getWeightedGLS ["a", "b", "c"] [1, 1, 1] 1 1 tree3 = some [("root", 1)] ∧
    getRestrictedGLS ["a", "b", "c"] [1, 1, 1] 3 tree3 = some [("root", 1)] :=
  ⟨by rfl, by rfl, by rfl⟩

/-- Claim C6: if every tip of the LCA subtree of the positive tips has
`pap = 1` — in particular when that subtree is a single tip, whose strict
tip list is empty — both solvers return exactly `[(subtree.name, 1)]`. -/
theorem C6_all_ones_shortcut (taxa : List String) (pap : List Nat)
    (gw lw k : Nat) (tree sub : PTree) (pos : List String)
    (hpos : posNames taxa pap = some pos) (hlca : lcaT pos tree = some sub)
    (hall : ∀ n ∈ tipsOf sub, tipState taxa pap n = some 1) :
    getWeightedGLS taxa pap gw lw tree = some [(sub.name, 1)] ∧
    getRestrictedGLS taxa pap k tree = some [(sub.name, 1)] := by
  have hsts : optMapM (tipState taxa pap) (tipsOf sub) =
      some ((tipsOf sub).map (fun _ => 1)) := optMapM_of_forall hall
  have hsum : ((tipsOf sub).map (fun _ => (1 : Nat))).sum =
      ((tipsOf sub).map (fun _ => (1 : Nat))).length := by
    induction tipsOf sub with
    | nil => rfl
    | cons x t ih =>
      simp only [List.map_cons, List.sum_cons, List.length_cons, ih]
      omega
  constructor
  · show (posNames taxa pap).bind (fun pos => (lcaT pos tree).bind (fun sub =>
      (optMapM (tipState taxa pap) (tipsOf sub)).bind (fun sts =>
        if sts.sum = sts.length then some [(sub.name, 1)]
        else (histsGen taxa pap (combineW gw lw (maxWeightOf pap gw lw)) sub).bind
          (fun hs => finishW gw lw sub.name hs)))) = some [(sub.name, 1)]
    rw [hpos, Option.some_bind, hlca, Option.some_bind, hsts, Option.some_bind,
      if_pos hsum]
  · show (posNames taxa pap).bind (fun pos => (lcaT pos tree).bind (fun sub =>
      (optMapM (tipState taxa pap) (tipsOf sub)).bind (fun sts =>
        if sts.sum = sts.length then some [(sub.name, 1)]
        else (histsGen taxa pap (combineR k) sub).bind
          (fun hs => finishR sub.name hs)))) = some [(sub.name, 1)]
    rw [hpos, Option.some_bind, hlca, Option.some_bind, hsts, Option.some_bind,
      if_pos hsum]

/-- Witness for C6: a single-tip LCA subtree, `(a,b)root;` with PAP
`[1,0]`. -/
theorem C6_witness :
    getWeightedGLS ["a", "b"] [1, 0] 1 1 tree2 = some [("a", 1)] ∧
    getRestrictedGLS ["a", "b"] [1, 0] 1 tree2 = some [("a", 1)] :=
  C6_all_ones_shortcut ["a", "b"] [1, 0] 1 1 1 tree2 (.tip "a") ["a"]
    (by rfl) (by rfl) (by decide)

/-- Claim C2 (amended): the projector paints, for an entry `(name, event)`,
the internal nodes *strictly below* `name` — PyCogent `nontips()` excludes
the named node itself — so on the spec's Scenario F the `(Y,0)` entry
paints nothing (the subtree at `Y` has no strict internal descendants) and
the projected internal states are `root = 1, X = 1, Y = 1`. -/
theorem C2_projector :
    projectGLS treeB glsF = some [("root", 1), ("X", 1), ("Y", 1)] ∧
    findNode "Y" treeB = some (.node "Y" [.tip "c", .tip "d"]) ∧
    nontipNames (.node "Y" [.tip "c", .tip "d"]) = [] :=
  ⟨by rfl, by rfl, by rfl⟩

/-- Counterexample to C2 as stated: on Scenario F the code does not produce
`Y = 0`; the `(Y,0)` entry cannot overwrite `Y` itself. -/
theorem C2_counterexample :
    projectGLS treeB glsF ≠ some [("root", 1), ("X", 1), ("Y", 0)] := by
  decide

/-- Claim C8: trebor.py:925 computes `w = 1000000 / int(...)` under
Python 3, where `/` is true division.  With three characters sharing the
origin pair `{A,B}` the co-origin weight is `3 ≥ 1`, and the resulting
edge weight is the non-integer `1000000/3`, contradicting the spec's
"integer division; every edge weight is an integer" (the Python 2 sibling
trpn.py:981 does divide integrally). -/
theorem C8_mln_weight_not_integer :
    1 ≤ primaryWeight scenAB "A" "B" ∧
    mlnEdgeWeight scenAB "A" "B" = 1000000 / 3 ∧
    ¬∃ n : Nat, mlnEdgeWeight scenAB "A" "B" = (n : ℚ) := by
  have hp : primaryWeight scenAB "A" "B" = 3 := by rfl
  refine ⟨by rw [hp]; omega, ?_, ?_⟩
  · show mlnWeight (primaryWeight scenAB "A" "B") = 1000000 / 3
    rw [hp]
    norm_num [mlnWeight]
  · rintro ⟨n, hn⟩
    have hd : (mlnEdgeWeight scenAB "A" "B").den = 3 := by
      show (mlnWeight (primaryWeight scenAB "A" "B")).den = 3
      rw [hp]
      norm_num [mlnWeight, Rat.den]
    rw [hn, Rat.den_natCast] at hd
    exact absurd hd (by decide)

theorem mapM_none_of_mem {α β : Type} {f : α → Option β} :
    ∀ {l : List α}, (∃ x ∈ l, f x = none) → l.mapM f = none := by
  intro l
  induction l with
  | nil =>
    rintro ⟨x, hx, _⟩
    exact absurd hx (List.not_mem_nil x)
  | cons a xs ih =>
    rintro ⟨x, hx, hfx⟩
    rw [List.mapM_cons]
    rcases List.mem_cons.1 hx with rfl | hx2
    · rw [hfx]
      rfl
    · cases hf : f a with
      | none => rfl
      | some y =>
        show (xs.mapM f).bind (fun bs => some (y :: bs)) = none
        rw [ih ⟨x, hx2, hfx⟩]
        rfl

theorem lcaT_nil (t : PTree) : lcaT [] t = none := by
  have h0 : posCountT [] t = 0 := List.countP_eq_zero.2 (fun a _ => by simp)
  unfold lcaT
  rw [if_pos h0]

theorem posNames_all_zero {taxa : List String} {pap : List Nat}
    (hz : ∀ v ∈ pap, v = 0) (hlen : taxa.length ≤ pap.length) :
    posNames taxa pap = some [] := by
  have hf : (taxa.zip pap).filter (fun p => 1 ≤ p.2) = [] :=
    List.filter_eq_nil_iff.2 (fun a ha => by
      have h2 : a.2 = 0 := hz a.2 (List.of_mem_zip ha).2
      simp [h2])
  unfold posNames
  rw [if_pos hlen, hf]
  rfl

theorem solver_none_of_all_zero {taxa : List String} {pap : List Nat}
    (hz : ∀ v ∈ pap, v = 0) (gw lw k : Nat) (tree : PTree) :
    getWeightedGLS taxa pap gw lw tree = none ∧
    getRestrictedGLS taxa pap k tree = none := by
  by_cases hlen : taxa.length ≤ pap.length
  · have hpos := posNames_all_zero hz hlen
    constructor
    · show (posNames taxa pap).bind (fun pos => (lcaT pos tree).bind (fun sub =>
        (optMapM (tipState taxa pap) (tipsOf sub)).bind (fun sts =>
          if sts.sum = sts.length then some [(sub.name, 1)]
          else (histsGen taxa pap (combineW gw lw (maxWeightOf pap gw lw)) sub).bind
            (fun hs => finishW gw lw sub.name hs)))) = none
      rw [hpos, Option.some_bind, lcaT_nil]
      rfl
    · show (posNames taxa pap).bind (fun pos => (lcaT pos tree).bind (fun sub =>
        (optMapM (tipState taxa pap) (tipsOf sub)).bind (fun sts =>
          if sts.sum = sts.length then some [(sub.name, 1)]
          else (histsGen taxa pap (combineR k) sub).bind
            (fun hs => finishR sub.name hs)))) = none
      rw [hpos, Option.some_bind, lcaT_nil]
      rfl
  · have hpos : posNames taxa pap = none := by
      unfold posNames
      rw [if_neg hlen]
    constructor
    · show (posNames taxa pap).bind (fun pos => (lcaT pos tree).bind (fun sub =>
        (optMapM (tipState taxa pap) (tipsOf sub)).bind (fun sts =>
          if sts.sum = sts.length then some [(sub.name, 1)]
          else (histsGen taxa pap (combineW gw lw (maxWeightOf pap gw lw)) sub).bind
            (fun hs => finishW gw lw sub.name hs)))) = none
      rw [hpos]
      rfl
    · show (posNames taxa pap).bind (fun pos => (lcaT pos tree).bind (fun sub =>
        (optMapM (tipState taxa pap) (tipsOf sub)).bind (fun sts =>
          if sts.sum = sts.length then some [(sub.name, 1)]
          else (histsGen taxa pap (combineR k) sub).bind
            (fun hs => finishR sub.name hs)))) = none
      rw [hpos]
      rfl

/-- Claim C9 (amended): a character with zero positive tips is *not*
skipped: its PAP sum `0` passes the singleton filter, it is handed to the
selected solver, the LCA lookup fails on the empty positive set, and the
whole GLS computation fails instead of producing the other characters'
entries. -/
theorem C9_empty_character (taxa : List String) (tree : PTree)
    (paps : List (String × List Nat)) (weighted : Bool) (gw lw k : Nat)
    (p : String × List Nat) (hp : p ∈ paps) (hz : ∀ v ∈ p.2, v = 0) :
    p ∈ paps.filter (fun q => q.2.sum ≠ 1) ∧
    getGLSall taxa tree paps weighted gw lw k = none := by
  have hsum : p.2.sum = 0 := List.sum_eq_zero hz
  have hfilt : p ∈ paps.filter (fun q => q.2.sum ≠ 1) :=
    List.mem_filter.2 ⟨hp, by simp [hsum]⟩
  refine ⟨hfilt, ?_⟩
  have hfp : (if weighted then getWeightedGLS taxa p.2 gw lw tree
      else getRestrictedGLS taxa p.2 k tree).bind
      (fun g => some (p.1, g, nooOf g)) = none := by
    rcases solver_none_of_all_zero hz gw lw k tree with ⟨hw, hr⟩
    cases weighted with
    | false =>
      rw [if_neg (by simp), hr]
      rfl
    | true =>
      rw [if_pos rfl, hw]
      rfl
  show (paps.filter (fun q => q.2.sum ≠ 1)).mapM (fun q =>
    (if weighted then getWeightedGLS taxa q.2 gw lw tree
     else getRestrictedGLS taxa q.2 k tree).bind
      (fun g => some (q.1, g, nooOf g))) = none
  exact mapM_none_of_mem ⟨p, hfilt, hfp⟩

/-- Witness for C9 (amended): the empty character `2:1` of the two-character
table aborts the whole computation. -/
theorem C9_witness :
    ("2:1", [0, 0]) ∈ paps9.filter (fun q => q.2.sum ≠ 1) ∧
    getGLSall ["a", "b"] tree2 paps9 true 1 1 1 = none :=
  C9_empty_character ["a", "b"] tree2 paps9 true 1 1 1 ("2:1", [0, 0])
    (by decide) (by decide)

/-- Counterexample to C9 as stated: with the empty character present the
computation fails outright (`none`) instead of skipping it, although the
same table without the empty character succeeds. -/
theorem C9_counterexample :
    getGLSall ["a", "b"] tree2 paps9 true 1 1 1 = none ∧
    getGLSall ["a", "b"] tree2 [("1:1", [1, 1])] true 1 1 1 =
      some [("1:1", ([("root", 1)], 1))] :=
  ⟨by rfl, by rfl⟩

theorem find?_congr {p q : GLS → Bool} :
    ∀ {l : List GLS}, (∀ a ∈ l, p a = q a) → l.find? p = l.find? q := by
  intro l
  induction l with
  | nil => intro _; rfl
  | cons a t ih =>
    intro h
    rw [List.find?_cons, List.find?_cons, h a (by simp),
      ih (fun b hb => h b (by simp [hb]))]

theorem firstMinBy_congr {key1 key2 : GLS → Nat} {l : List GLS}
    (h : ∀ z ∈ l, key1 z = key2 z) : firstMinBy key1 l = firstMinBy key2 l := by
  unfold firstMinBy
  have hmap : l.map key1 = l.map key2 := List.map_congr_left h
  rw [hmap]
  cases hpm : pyMin (l.map key2) with
  | none => rfl
  | some m => exact find?_congr (fun a ha => by rw [h a ha])

theorem head_insertionSort_firstMinBy (key : GLS → Nat) :
    ∀ l : List GLS,
      (List.insertionSort (fun x y => key x ≤ key y) l).head? = firstMinBy key l := by
  intro l
  induction l with
  | nil => rfl
  | cons x xs ih =>
    simp only [List.insertionSort]
    cases hs : List.insertionSort (fun x y => key x ≤ key y) xs with
    | nil =>
      have hxs : xs = [] := by
        have hperm := List.perm_insertionSort (fun x y => key x ≤ key y) xs
        rw [hs] at hperm
        exact hperm.symm.eq_nil
      subst hxs
      show some x = firstMinBy key [x]
      unfold firstMinBy
      show some x = [x].find? (fun z => key z = key x)
      rw [List.find?_cons_of_pos _ (by simp)]
    | cons y t =>
      have hfirst : firstMinBy key xs = some y := by
        rw [← ih, hs]
        rfl
      unfold firstMinBy at hfirst
      cases hpm : pyMin (xs.map key) with
      | none =>
        rw [hpm] at hfirst
        exact Option.noConfusion (show (none : Option GLS) = some y from hfirst)
      | some m =>
        rw [hpm] at hfirst
        have hfind : xs.find? (fun z => key z = m) = some y := hfirst
        have hky : key y = m := by
          have h2 := List.find?_some hfind
          simpa using h2
        have hpm2 : pyMin ((x :: xs).map key) = some (min (key x) m) := by
          rw [List.map_cons, pyMin, hpm]
        unfold firstMinBy
        rw [hpm2]
        simp only [List.orderedInsert]
        by_cases hxy : key x ≤ key y
        · rw [if_pos hxy]
          have hminx : min (key x) m = key x := min_eq_left (hky ▸ hxy)
          rw [hminx]
          show some x = (x :: xs).find? (fun z => key z = key x)
          rw [List.find?_cons_of_pos _ (by simp)]
        · rw [if_neg hxy]
          have hyx : key y < key x := Nat.not_le.1 hxy
          have hminm : min (key x) m = m := min_eq_right (le_of_lt (hky ▸ hyx))
          rw [hminm]
          show some y = (x :: xs).find? (fun z => key z = m)
          rw [List.find?_cons_of_neg _ (by
            simp only [decide_eq_true_eq]
            omega)]
          exact hfind.symm

theorem sumEvents_eq_gainCount {l : GLS} (h : ∀ p ∈ l, p.2 = 0 ∨ p.2 = 1) :
    sumEvents l = gainCount l := by
  unfold sumEvents gainCount
  rw [← count_map_snd]
  exact sum_eq_countOne (fun x hx => by
    rcases List.mem_map.1 hx with ⟨p, hp, rfl⟩
    exact h p hp)

theorem scenarioOf_events_binary {r : String} {a : Hist}
    (h2 : ∀ p ∈ a.2, p.2 = 0 ∨ p.2 = 1) :
    ∀ p ∈ scenarioOf r a, p.2 = 0 ∨ p.2 = 1 := by
  intro p hp
  unfold scenarioOf at hp
  by_cases ha : a.1 = 1
  · rw [if_pos ha] at hp
    rcases List.mem_cons.1 hp with rfl | hp2
    · exact Or.inr rfl
    · exact h2 p hp2
  · rw [if_neg ha] at hp
    exact h2 p hp

/-- Claim C5: when the solvers reach the selection step, the weighted
solver returns, among the minimal-cost complete scenarios in emission
order, the first one under the stable ascending sort by total number of
gain events, and the restricted solver the first one under the stable
ascending sort by total scenario length — i.e. each returns the first
minimal-key scenario in emission order (`firstMinBy`). -/
theorem C5_selector (taxa : List String) (pap : List Nat) (gw lw k : Nat)
    (tree sub : PTree) (pos : List String) (sts : List Nat) (hsW hsR : List Hist)
    (hnd : (nodeNames sub).Nodup)
    (hpos : posNames taxa pap = some pos) (hlca : lcaT pos tree = some sub)
    (hsts : optMapM (tipState taxa pap) (tipsOf sub) = some sts)
    (hne : sts.sum ≠ sts.length)
    (hW : histsGen taxa pap (combineW gw lw (maxWeightOf pap gw lw)) sub = some hsW)
    (hR : histsGen taxa pap (combineR k) sub = some hsR) :
    getWeightedGLS taxa pap gw lw tree =
      firstMinBy gainCount
        (minCostBy (costW gw lw) (hsW.map (scenarioOf sub.name))) ∧
    getRestrictedGLS taxa pap k tree =
      firstMinBy List.length
        (minCostBy costR (hsR.map (scenarioOf sub.name))) := by
  constructor
  · show (posNames taxa pap).bind (fun pos => (lcaT pos tree).bind (fun sub =>
      (optMapM (tipState taxa pap) (tipsOf sub)).bind (fun sts =>
        if sts.sum = sts.length then some [(sub.name, 1)]
        else (histsGen taxa pap (combineW gw lw (maxWeightOf pap gw lw)) sub).bind
          (fun hs => finishW gw lw sub.name hs)))) =
      firstMinBy gainCount
        (minCostBy (costW gw lw) (hsW.map (scenarioOf sub.name)))
    rw [hpos, Option.some_bind, hlca, Option.some_bind, hsts, Option.some_bind,
      if_neg hne, hW, Option.some_bind]
    unfold finishW
    rw [head_insertionSort_firstMinBy sumEvents]
    refine firstMinBy_congr ?_
    intro z hz
    rcases List.mem_map.1 (minCostBy_subset _ _ hz) with ⟨a, ha, rfl⟩
    obtain ⟨_, _, hev, _, _, _⟩ :=
      histsGen_inv (combShape_combineW gw lw (maxWeightOf pap gw lw)) taxa pap sub
        hnd hsW hW a ha
    exact sumEvents_eq_gainCount (scenarioOf_events_binary hev)
  · show (posNames taxa pap).bind (fun pos => (lcaT pos tree).bind (fun sub =>
      (optMapM (tipState taxa pap) (tipsOf sub)).bind (fun sts =>
        if sts.sum = sts.length then some [(sub.name, 1)]
        else (histsGen taxa pap (combineR k) sub).bind
          (fun hs => finishR sub.name hs)))) =
      firstMinBy List.length (minCostBy costR (hsR.map (scenarioOf sub.name)))
    rw [hpos, Option.some_bind, hlca, Option.some_bind, hsts, Option.some_bind,
      if_neg hne, hR, Option.some_bind]
    unfold finishR
    rw [head_insertionSort_firstMinBy List.length]

/-- Witness for C5: the spec's Scenario A, with the concrete history lists
the combination steps emit. -/
theorem C5_witness :
    getWeightedGLS ["a", "b", "c"] [1, 0, 1] 1 1 treeA =
      firstMinBy gainCount (minCostBy (costW 1 1)
        ([((0 : Nat), [("a", 1), ("c", 1)]), (1, [("b", 0)])].map
          (scenarioOf "root"))) ∧
    getRestrictedGLS ["a", "b", "c"] [1, 0, 1] 3 treeA =
      firstMinBy List.length (minCostBy costR
        ([((0 : Nat), [("a", 1), ("c", 1)]), (1, [("b", 0)])].map
          (scenarioOf "root"))) :=
  C5_selector ["a", "b", "c"] [1, 0, 1] 1 1 3 treeA treeA ["a", "c"] [1, 0, 1]
    [(0, [("a", 1), ("c", 1)]), (1, [("b", 0)])]
    [(0, [("a", 1), ("c", 1)]), (1, [("b", 0)])]
    (by decide) (by rfl) (by rfl) (by rfl) (by decide) (by rfl) (by rfl)

end TreBor
